import Mathlib

/-!
Verification of the virtual-memory management core (user grants, hole map,
region algebra, memory-map normalizer, kernel-half lock, grant copy loop)
against its natural-language specification.

The Rust source is shallowly embedded: machine integers become `Nat`
(with an explicit modulus where machine-width overflow matters: `% 2 ^ 32`
in the 32-bit rmm code, `% USIZE_MOD` at find_free_at's unvalidated usize
sum), `BTreeSet` and
`BTreeMap` become sorted association lists, fallible paths return
`Option`/`Except`, and panics (assert/expect/unreachable) are modelled as
`Option.none` results of the enclosing operation.
-/

namespace Helctic

/-- Page size, 4096 bytes (spec section 8: PAGE_SIZE = 4096 = 0x1000). -/
def PAGE_SIZE : Nat := 4096

/-- End of the user half of the address space.
Modelled from the spec: the constant `crate::USER_END_OFFSET` is defined in
arch code outside the provided sources; spec section 8 fixes
USER_END = 0x800000000000. -/
def USER_END_OFFSET : Nat := 0x800000000000

/-- Modelled from the spec: `round_up_pages` from `crate::paging` (not in the
provided sources); spec section 4.6 describes `round` as rounding the size up
to the page size. -/
def round_up_pages (size : Nat) : Nat :=
  ((size + PAGE_SIZE - 1) / PAGE_SIZE) * PAGE_SIZE

/-- The usize modulus of the 64-bit target that context/memory.rs addresses
(USER_END_OFFSET = 2 to the 47th power selects the x86_64 layout): 2 to the
64th power. -/
def USIZE_MOD : Nat := 18446744073709551616

/-- Region from context/memory.rs: half-open interval given by start and size.
VirtualAddress is an opaque wrapper over an integer, modelled as `Nat`. -/
structure Region where
  start : Nat
  size : Nat
deriving Repr, DecidableEq

namespace Region

/-- Region::new. -/
def new (start size : Nat) : Region := ⟨start, size⟩

/-- Region::byte: region spanning exactly one byte. -/
def byte (address : Nat) : Region := ⟨address, 1⟩

/-- Region::between (exclusive end); the subtraction is saturating in the
source (`saturating_sub`), matching Nat subtraction. -/
def between (start «end» : Nat) : Region := ⟨start, «end» - start⟩

/-- Region::start_address. -/
def start_address (r : Region) : Nat := r.start

/-- Region::end_address (exclusive end), as the unbounded sum.  Valid at call
sites reached only with start + size below USIZE_MOD, where the machine
addition cannot wrap; the one call site fed raw user input (find_free_at's
validity check) instead uses the wrapping form end_addressU below. -/
def end_address (r : Region) : Nat := r.start + r.size

/-- Region::end_address as the 64-bit usize machine evaluates it: the
release-mode addition wraps modulo USIZE_MOD. -/
def end_addressU (r : Region) : Nat := (r.start + r.size) % USIZE_MOD

/-- Region::intersect. -/
def intersect (r other : Region) : Region :=
  between (max r.start other.start) (min r.end_address other.end_address)

/-- Region::is_empty. -/
def is_empty (r : Region) : Bool := r.size == 0

/-- Region::round: round region size up to nearest page size. -/
def round (r : Region) : Region := ⟨r.start, round_up_pages r.size⟩

/-- Region::full_size. -/
def full_size (r : Region) : Nat := r.round.size

/-- Region::collides, translated literally from the source:
`self.start_address() <= other.start_address() &&
 other.end_address().data() - self.start_address().data() < self.size()`.
The second conjunct is only evaluated when the first holds (Rust
short-circuit), in which case the usize subtraction cannot underflow, so Nat
subtraction is faithful. -/
def collides (r other : Region) : Bool :=
  r.start_address ≤ other.start_address &&
    other.end_address - r.start_address < r.size

/-- Region::occupies: collides on the page-rounded region. -/
def occupies (r other : Region) : Bool :=
  r.round.collides other

/-- Region::before, without its assertion (the assertion
`self.start <= region.start` is checked by the caller `Grant::extract` in
this embedding, see `Grant.extract`). -/
def before (r region : Region) : Option Region :=
  (some (between r.start_address region.start_address)).filter
    (fun reg => !reg.is_empty)

/-- Region::after, without its assertion (checked in `Grant.extract`). -/
def after (r region : Region) : Option Region :=
  (some (between region.end_address r.end_address)).filter
    (fun reg => !reg.is_empty)

end Region

/-- The subset of MapFlags bits that the embedded operations inspect. -/
structure MapFlags where
  map_fixed : Bool
  map_fixed_noreplace : Bool
deriving Repr, DecidableEq

/-- Error numbers used by the embedded operations. -/
inductive Errno where
  | EINVAL
  | EEXIST
  | EOPNOTSUPP
  | ENOMEM
deriving Repr, DecidableEq

/-- Grant from context/memory.rs.  Page flags are opaque to every verified
operation and are modelled as a `Nat`; the optional file reference
(GrantFileRef) is likewise opaque and modelled as `Option Nat`. -/
structure Grant where
  region : Region
  flags : Nat
  mapped : Bool
  owned : Bool
  desc_opt : Option Nat
deriving Repr, DecidableEq

namespace Grant

/-- Grant::extract.  The two alignment assertions and the assertions inside
`Region::before` / `Region::after` (containment of `region` in the grant)
panic in the source; a panic is modelled as `none`. -/
def extract (g : Grant) (region : Region) : Option (Option Grant × Grant × Option Grant) :=
  if region.start % PAGE_SIZE ≠ 0 then none
  else if region.size % PAGE_SIZE ≠ 0 then none
  else if ¬ (g.region.start_address ≤ region.start_address ∧
             region.end_address ≤ g.region.end_address) then none
  else
    let before_grant := (g.region.before region).map (fun r =>
      { region := r, flags := g.flags, mapped := g.mapped, owned := g.owned,
        desc_opt := g.desc_opt })
    let after_grant := (g.region.after region).map (fun r =>
      { region := r, flags := g.flags, mapped := g.mapped, owned := g.owned,
        desc_opt := g.desc_opt })
    some (before_grant, { g with region := region }, after_grant)

end Grant

/-!
Sorted association lists standing in for `BTreeMap<VirtualAddress, usize>`
(the hole map) and sorted grant lists standing in for `BTreeSet<Grant>`
(ordered by region start, since Ord on Region compares starts only).
-/

/-- The greatest entry with key strictly below x: models
`map.range(..x).next_back()` on a key-sorted association list. -/
def findLastLt : List (Nat × Nat) → Nat → Option (Nat × Nat)
  | [], _ => none
  | (k, v) :: t, x => if k < x then some ((findLastLt t x).getD (k, v)) else none

/-- Value lookup, models `BTreeMap::get` / the value returned by remove. -/
def lookupKey : List (Nat × Nat) → Nat → Option Nat
  | [], _ => none
  | (k, v) :: t, x => if k = x then some v else lookupKey t x

/-- Key removal, models `BTreeMap::remove` (first occurrence). -/
def removeKey : List (Nat × Nat) → Nat → List (Nat × Nat)
  | [], _ => []
  | (k, v) :: t, x => if k = x then t else (k, v) :: removeKey t x

/-- In-place value update behind `range_mut(..).next_back()` mutation. -/
def setVal : List (Nat × Nat) → Nat → Nat → List (Nat × Nat)
  | [], _, _ => []
  | (k, v) :: t, x, nv => if k = x then (k, nv) :: t else (k, v) :: setVal t x nv

/-- Sorted insertion, models `BTreeMap::insert` (replaces an equal key). -/
def insertSorted : List (Nat × Nat) → Nat → Nat → List (Nat × Nat)
  | [], k, v => [(k, v)]
  | (k0, v0) :: t, k, v =>
    if k < k0 then (k, v) :: (k0, v0) :: t
    else if k = k0 then (k, v) :: t
    else (k0, v0) :: insertSorted t k v

/-- The greatest grant with region start at most x: models
`set.range(..=Region::byte(x)).next_back()`. -/
def lastLe : List Grant → Nat → Option Grant
  | [], _ => none
  | g :: t, x => if g.region.start ≤ x then some ((lastLe t x).getD g) else none

/-- Sorted insertion of a grant by region start, models `BTreeSet::insert`
(keeps the existing element on an equal key; the caller's assert rules the
equal case out on every reachable state). -/
def insertGrantSorted : List Grant → Grant → List Grant
  | [], g => [g]
  | g0 :: t, g =>
    if g.region.start < g0.region.start then g :: g0 :: t
    else if g.region.start = g0.region.start then g0 :: t
    else g0 :: insertGrantSorted t g

/-- Find and remove the grant whose region start equals x, models
`BTreeSet::take` keyed by a Region (Ord on Region compares starts). -/
def takeByStart : List Grant → Nat → Option Grant × List Grant
  | [], _ => (none, [])
  | g :: t, x =>
    if g.region.start = x then (some g, t)
    else
      let (r, t') := takeByStart t x
      (r, g :: t')

/-- UserGrants from context/memory.rs: the grant set, the hole map and the
funmap (ordered map Region → VirtualAddress, untouched by the verified
operations but part of bit-equality). -/
structure UserGrants where
  inner : List Grant
  holes : List (Nat × Nat)
  funmap : List (Region × Nat)
deriving Repr, DecidableEq

namespace UserGrants

/-- UserGrants::new. -/
def new : UserGrants :=
  { inner := [], holes := [(0, USER_END_OFFSET)], funmap := [] }

/-- UserGrants::contains: the grant, if any, which occupies the address. -/
def contains (s : UserGrants) (address : Nat) : Option Grant :=
  (lastLe s.inner address).filter
    (fun existing => existing.region.occupies (Region.byte address))

/-- UserGrants::conflicts: grants that occupy some part of the requested
region (`range(start_region..)` then `take_while` on nonempty intersection). -/
def conflicts (s : UserGrants) (requested : Region) : List Grant :=
  let start_region := ((s.contains requested.start_address).map
    (fun g => g.region)).getD requested
  (s.inner.dropWhile (fun g => g.region.start < start_region.start)).takeWhile
    (fun g => !(g.region.intersect requested).is_empty)

/-- The hole filter inside UserGrants::find_free: a hole at address 0 has
its size reduced by one page (`saturating_sub` is Nat subtraction) to keep
the null page reserved. -/
def sufficientHole (size : Nat) (h : Nat × Nat) : Bool :=
  size ≤ if h.1 = 0 then h.2 - PAGE_SIZE else h.2

/-- UserGrants::find_free: first hole of sufficient (adjusted) size. -/
def find_free (s : UserGrants) (size : Nat) : Option Region :=
  (s.holes.find? (sufficientHole size)).map
    (fun h => Region.new (max h.1 PAGE_SIZE) size)

/-- UserGrants::find_free_at.  The validity check compares
`requested.end_address()`, a raw usize sum of user-supplied operands that
wraps modulo USIZE_MOD in release mode, against USER_END_OFFSET. -/
def find_free_at (s : UserGrants) (address size : Nat) (flags : MapFlags) :
    Except Errno Region :=
  if address = 0 then
    match s.find_free size with
    | some r => .ok r
    | none => .error .ENOMEM
  else
    let requested := Region.new address size
    if requested.end_addressU > USER_END_OFFSET ∨ address % PAGE_SIZE ≠ 0 then
      .error .EINVAL
    else
      match s.contains requested.start_address with
      | some _ =>
        if flags.map_fixed_noreplace then .error .EEXIST
        else if flags.map_fixed then .error .EOPNOTSUPP
        else
          match s.find_free requested.size with
          | some r => .ok r
          | none => .error .ENOMEM
      | none => .ok requested

/-- First half of UserGrants::reserve: find the hole strictly before the
grant start; shrink it if it reaches past the start, and split off its tail
if it also reaches past the grant end. -/
def reservePrev (holes : List (Nat × Nat)) (gs gend : Nat) : List (Nat × Nat) :=
  match findLastLt holes gs with
  | some (hole_offset, hole_size) =>
    let prev_hole_end := hole_offset + hole_size
    let holesA :=
      if prev_hole_end > gs then setVal holes hole_offset (gs - hole_offset)
      else holes
    if prev_hole_end > gend then
      insertSorted holesA gend (prev_hole_end - gend)
    else holesA
  | none => holes

/-- Second half of UserGrants::reserve: remove the hole keyed exactly at the
grant start and reinsert its remainder past the grant end. -/
def reserveAt (holes1 : List (Nat × Nat)) (gs gsz gend : Nat) : List (Nat × Nat) :=
  match lookupKey holes1 gs with
  | some hole_size =>
    let holes2 := removeKey holes1 gs
    if hole_size - gsz > 0 then insertSorted holes2 gend (hole_size - gsz)
    else holes2
  | none => holes1

/-- UserGrants::reserve on the hole map.  The usize subtraction
`hole_size - grant.size()` is within bounds on every state reachable under
the container invariant (proved below), where Nat subtraction agrees. -/
def reserveHoles (holes : List (Nat × Nat)) (gs gsz : Nat) : List (Nat × Nat) :=
  reserveAt (reservePrev holes gs (gs + gsz)) gs gsz (gs + gsz)

/-- UserGrants::unreserve on the hole map. -/
def unreserveHoles (holes : List (Nat × Nat)) (gs gsz : Nat) : List (Nat × Nat) :=
  let gend := gs + gsz
  let exactly_after := lookupKey holes gend
  let holes1 := removeKey holes gend
  match findLastLt holes1 gs with
  | some (hole_offset, hole_size) =>
    if hole_offset + hole_size = gs then
      setVal holes1 hole_offset (gend - hole_offset + exactly_after.getD 0)
    else insertSorted holes1 gs (gsz + exactly_after.getD 0)
  | none => insertSorted holes1 gs (gsz + exactly_after.getD 0)

/-- UserGrants::insert; the assert on an empty conflict iterator panics,
modelled as `none`. -/
def insert (s : UserGrants) (grant : Grant) : Option UserGrants :=
  if s.conflicts grant.region ≠ [] then none
  else some
    { inner := insertGrantSorted s.inner grant,
      holes := reserveHoles s.holes grant.region.start grant.region.size,
      funmap := s.funmap }

/-- UserGrants::take: remove by key, then unreserve the stored grant's
region. -/
def take (s : UserGrants) (region : Region) : Option Grant × UserGrants :=
  match takeByStart s.inner region.start with
  | (none, _) => (none, s)
  | (some g, inner') =>
    (some g,
     { inner := inner',
       holes := unreserveHoles s.holes g.region.start g.region.size,
       funmap := s.funmap })

end UserGrants

/-!
Operation sequences over a UserGrants container, and the canonical shape of
the hole map determined by the grant set.
-/

/-- Well-formedness of a grant's region, as guaranteed by the public Grant
constructors (zeroed/physmap/borrow/reborrow/transfer/extract build regions
from pages, with positive page counts by the spec's constructor
preconditions, inside the user half). -/
def regionWf (r : Region) : Prop :=
  r.start % PAGE_SIZE = 0 ∧ r.size % PAGE_SIZE = 0 ∧ 0 < r.size ∧
    r.start + r.size ≤ USER_END_OFFSET

instance (r : Region) : Decidable (regionWf r) := by
  unfold regionWf; infer_instance

/-- Grant list in strictly ascending start order, pairwise disjoint, each
region well formed: the shape of `inner` on every reachable state. -/
def grantsChain : List Grant → Prop
  | [] => True
  | [g] => regionWf g.region
  | g :: g2 :: t =>
    regionWf g.region ∧ g.region.end_address ≤ g2.region.start ∧
      grantsChain (g2 :: t)

instance instDecGrantsChain : (l : List Grant) → Decidable (grantsChain l)
  | [] => inferInstanceAs (Decidable True)
  | [g] => inferInstanceAs (Decidable (regionWf g.region))
  | _ :: g2 :: t =>
    have := instDecGrantsChain (g2 :: t)
    inferInstanceAs (Decidable (_ ∧ _ ∧ _))

/-- The maximal free intervals of `[p, USER_END_OFFSET)` left by a sorted
disjoint grant list: the canonical value of the hole map. -/
def canonicalHoles (p : Nat) : List Grant → List (Nat × Nat)
  | [] => if p < USER_END_OFFSET then [(p, USER_END_OFFSET - p)] else []
  | g :: t =>
    if p < g.region.start then
      (p, g.region.start - p) :: canonicalHoles g.region.end_address t
    else canonicalHoles g.region.end_address t

/-- The container invariant: sorted well-formed disjoint grants, and a hole
map in canonical correspondence with them. -/
def Inv (s : UserGrants) : Prop :=
  grantsChain s.inner ∧ s.holes = canonicalHoles 0 s.inner

instance (s : UserGrants) : Decidable (Inv s) := by
  unfold Inv; infer_instance

/-- A public mutation of the container: insert, or take/remove keyed by a
region. -/
inductive Op where
  | ins (g : Grant)
  | tak (r : Region)
deriving Repr, DecidableEq

/-- The well-formedness every operation's argument enjoys at the call sites
(see `regionWf`); take/remove is unconstrained. -/
def opWf : Op → Prop
  | .ins g => regionWf g.region
  | .tak _ => True

instance (op : Op) : Decidable (opWf op) := by
  cases op <;> { unfold opWf; infer_instance }

/-- One mutation step; `insert`'s failed assert is `none`. -/
def execOp (s : UserGrants) : Op → Option UserGrants
  | .ins g => s.insert g
  | .tak r => some (s.take r).2

/-- A sequence of public mutations. -/
def exec : List Op → UserGrants → Option UserGrants
  | [], s => some s
  | op :: t, s => (execOp s op).bind (exec t)

/-!
Memory-map normalizer from arch/x86/rmm.rs (`init`).  On this 32-bit
architecture `usize` is 32 bits wide; additions that can overflow are
performed modulo 2^32 as in release-mode Rust, and the `u64` fields of a
bootloader entry are truncated by the `as usize` casts.
-/

namespace Rmm

/-- The usize modulus of the 32-bit x86 target, 2 to the 32nd power. -/
def U32 : Nat := 4294967296

/-- Wrapping usize addition. -/
def uadd (a b : Nat) : Nat := (a + b) % U32

/-- One firmware memory-map entry `{ base: u64, size: u64, kind: u64 }`;
kind 1 is Free. -/
structure BootloaderMemoryEntry where
  base : Nat
  size : Nat
  kind : Nat
deriving Repr, DecidableEq

/-- The merge loop `for other_i in 0..area_i`: walk the already-emitted
areas in order; on overlap, union into that slot in place and zero the
current size (the loop keeps scanning with the zeroed size, as the source
does).  Returns the updated areas and the final current size. -/
def combineAreas : List (Nat × Nat) → Nat → Nat → List (Nat × Nat) × Nat
  | [], _, size => ([], size)
  | (ob, osz) :: t, base, size =>
    if base < uadd ob osz ∧ uadd base size > ob then
      let nb := min base ob
      let ns := max (uadd base size) (uadd ob osz) - nb
      let (t', size') := combineAreas t base 0
      ((nb, ns) :: t', size')
    else
      let (t', size') := combineAreas t base size
      ((ob, osz) :: t', size')

/-- Normalize one bootloader entry against the reserved ranges `resv`
(real/kernel/stack/env/acpi/initfs, in source order) and the area list so
far, returning the new area list. -/
def processEntry (resv : List (Nat × Nat)) (areas : List (Nat × Nat))
    (e : BootloaderMemoryEntry) : List (Nat × Nat) :=
  if e.kind ≠ 1 then areas
  else
    let base0 := e.base % U32
    let size0 := e.size % U32
    let base_offset := (PAGE_SIZE - base0 % PAGE_SIZE) % PAGE_SIZE
    if base_offset > size0 then areas
    else
      let base1 := uadd base0 base_offset
      let size1 := size0 - base_offset
      let size2 := size1 - size1 % PAGE_SIZE
      let new_base := resv.foldl
        (fun nb rr =>
          if base1 < uadd rr.1 rr.2 ∧ uadd base1 size2 > rr.1 then
            max nb (uadd rr.1 rr.2)
          else nb) base1
      let base3 := if new_base ≠ base1 then new_base else base1
      let size3 := if new_base ≠ base1 then uadd base1 size2 - new_base else size2
      let physmap_size := 0x40000000
      let size4 :=
        if base3 ≥ physmap_size then 0
        else if uadd base3 size3 > physmap_size then physmap_size - base3
        else size3
      let r := combineAreas areas base3 size4
      if r.2 = 0 then r.1 else r.1 ++ [(base3, r.2)]

/-- The whole copy-and-normalize loop over the firmware entries. -/
def initAreas (resv : List (Nat × Nat))
    (entries : List BootloaderMemoryEntry) : List (Nat × Nat) :=
  entries.foldl (processEntry resv) []

/-- Page-align a reserved range size upward, as init does
(`((size + (PAGE_SIZE - 1)) / PAGE_SIZE) * PAGE_SIZE` in usize). -/
def alignUp (sz : Nat) : Nat := uadd sz (PAGE_SIZE - 1) / PAGE_SIZE * PAGE_SIZE

/-- The area table produced by `init` from the firmware map and the six
reserved ranges; the table the `areas()` slice then exposes. -/
def init (kernel_base kernel_size stack_base stack_size env_base env_size
    acpi_base acpi_size initfs_base initfs_size : Nat)
    (entries : List BootloaderMemoryEntry) : List (Nat × Nat) :=
  initAreas
    [(0, 0x100000),
     (kernel_base, alignUp kernel_size),
     (stack_base, alignUp stack_size),
     (env_base, alignUp env_size),
     (acpi_base, alignUp acpi_size),
     (initfs_base, alignUp initfs_size)]
    entries

end Rmm

/-!
Kernel-half lock from arch/x86/rmm.rs: the (owner, count) state of
LOCK_OWNER/LOCK_COUNT, the guard's read-only flag, and get_mut.
Acquisitions and releases are modelled as atomic transitions on that state;
an acquisition that would spin forever (lock held by another CPU) is `none`.
-/

namespace KernelLock

/-- The usize sentinel `!0` for no owner (2 to the 32nd power minus one on
this 32-bit target). -/
def NO_PROCESSOR : Nat := 4294967295

/-- LOCK_OWNER and LOCK_COUNT. -/
structure LockState where
  owner : Nat
  count : Nat
deriving Repr, DecidableEq

/-- A KernelMapper guard: the wrapped mapper (opaque, a Nat id) and the
read-only flag. -/
structure Guard where
  mapper : Nat
  ro : Bool
deriving Repr, DecidableEq

/-- KernelMapper::lock_inner: CAS owner from NO_PROCESSOR (or observe it
already equals this CPU), then fetch_add the count; the previous count
decides reentrancy.  Returns the new state and the `ro` flag. -/
def lock_inner (s : LockState) (current_processor : Nat) :
    Option (LockState × Bool) :=
  if s.owner = NO_PROCESSOR ∨ s.owner = current_processor then
    some ({ owner := current_processor, count := s.count + 1 }, s.count > 0)
  else none

/-- KernelMapper::lock_for_manual_mapper. -/
def lock_for_manual_mapper (s : LockState) (current_processor mapper : Nat) :
    Option (LockState × Guard) :=
  (lock_inner s current_processor).map
    (fun r => (r.1, { mapper := mapper, ro := r.2 }))

/-- KernelMapper::get_mut. -/
def get_mut (g : Guard) : Option Nat :=
  if g.ro then none else some g.mapper

/-- KernelMapper::drop: fetch_sub the count; a previous count of 1 releases
the owner. -/
def dropGuard (s : LockState) : LockState :=
  if s.count = 1 then { owner := NO_PROCESSOR, count := 0 }
  else { owner := s.owner, count := s.count - 1 }

end KernelLock

/-!
Grant::copy_inner from context/memory.rs.  Page mappers are modelled as
association lists from page virtual address to physical frame address; the
out-of-memory behaviour of `dst_mapper.map_phys` (allocation of paging
structures) is an oracle `canMap` indexed by the loop index.  Panics
(`expect` on an unmapped source page, the `unreachable!` in the rollback)
are `none`.
-/

namespace Copy

/-- A page mapper: page-table state as an association list. -/
abbrev Mapper := List (Nat × Nat)

/-- PageMapper::translate. -/
def translate (m : Mapper) (a : Nat) : Option Nat := lookupKey m a

/-- PageMapper::map_phys; `ok` is the allocation oracle for this call. -/
def map_phys (m : Mapper) (a phys : Nat) (ok : Bool) : Option Mapper :=
  if ok then some ((a, phys) :: m) else none

/-- PageMapper::unmap_phys: return the stored frame and clear the entry. -/
def unmap_phys (m : Mapper) (a : Nat) : Option (Nat × Mapper) :=
  (lookupKey m a).map (fun f => (f, removeKey m a))

/-- The first loop of copy_inner over the remaining indices: translate (or
unmap) the source page, try to map it at the destination, break on
allocation failure.  Returns source mapper, destination mapper and
`successful_count`. -/
def copyLoop (src_base dst_base : Nat) (canMap : Nat → Bool) (unmap : Bool) :
    List Nat → Mapper → Mapper → Nat → Option (Mapper × Mapper × Nat)
  | [], src, dst, sc => some (src, dst, sc)
  | index :: rest, src, dst, sc =>
    let src_page := src_base + index * PAGE_SIZE
    let step : Option (Nat × Mapper) :=
      if unmap then unmap_phys src src_page
      else (translate src src_page).map (fun a => (a, src))
    match step with
    | none => none
    | some (address, src') =>
      match map_phys dst (dst_base + index * PAGE_SIZE) address (canMap index) with
      | none => some (src', dst, sc)
      | some dst' => copyLoop src_base dst_base canMap unmap rest src' dst' (index + 1)

/-- The rollback loop of copy_inner: unmap every destination page mapped so
far, collecting the recovered frames when the grant would have been owned. -/
def rollbackLoop (dst_base : Nat) (owned : Bool) :
    List Nat → Mapper → List Nat → Option (Mapper × List Nat)
  | [], dst, freed => some (dst, freed)
  | index :: rest, dst, freed =>
    match unmap_phys dst (dst_base + index * PAGE_SIZE) with
    | none => none
    | some (frame, dst') =>
      rollbackLoop dst_base owned rest dst'
        (if owned then freed ++ [frame] else freed)

/-- The outcome of copy_inner: final mappers, frames returned to the
allocator, and either the built grant or the Enomem error. -/
structure CopyResult where
  srcM : Mapper
  dstM : Mapper
  freed : List Nat
  out : Except Unit Grant
deriving Repr

/-- Grant::copy_inner. -/
def copy_inner (src_base dst_base page_count flags : Nat)
    (desc_opt : Option Nat) (srcM dstM : Mapper) (canMap : Nat → Bool)
    (owned unmap : Bool) : Option CopyResult :=
  match copyLoop src_base dst_base canMap unmap (List.range page_count) srcM dstM 0 with
  | none => none
  | some (src', dst', successful_count) =>
    if successful_count ≠ page_count then
      match rollbackLoop dst_base owned (List.range successful_count) dst' [] with
      | none => none
      | some (dst2, freed) =>
        some { srcM := src', dstM := dst2, freed := freed, out := .error () }
    else
      some { srcM := src', dstM := dst', freed := [],
             out := .ok { region := { start := dst_base,
                                      size := page_count * PAGE_SIZE },
                          flags := flags, mapped := true, owned := owned,
                          desc_opt := desc_opt } }

end Copy

/-- Decidable equality for results carrying regions. -/
instance : DecidableEq (Except Errno Region) := fun a b =>
  match a, b with
  | .ok x, .ok y =>
    if h : x = y then .isTrue (by rw [h]) else .isFalse (by simp [h])
  | .error x, .error y =>
    if h : x = y then .isTrue (by rw [h]) else .isFalse (by simp [h])
  | .ok _, .error _ => .isFalse (by simp)
  | .error _, .ok _ => .isFalse (by simp)

/-!
Association-list lemmas, mirroring the BTreeMap operations used by
reserve/unreserve.
-/

theorem findLastLt_cons_lt {k v : Nat} {t : List (Nat × Nat)} {x : Nat}
    (h : k < x) :
    findLastLt ((k, v) :: t) x = some ((findLastLt t x).getD (k, v)) := by
  simp [findLastLt, h]

theorem findLastLt_cons_ge {k v : Nat} {t : List (Nat × Nat)} {x : Nat}
    (h : ¬ k < x) : findLastLt ((k, v) :: t) x = none := by
  simp [findLastLt, h]

theorem findLastLt_mem {t : List (Nat × Nat)} {x : Nat} {e : Nat × Nat}
    (h : findLastLt t x = some e) : e ∈ t := by
  induction t generalizing e with
  | nil => simp [findLastLt] at h
  | cons kv t ih =>
    obtain ⟨k, v⟩ := kv
    by_cases hk : k < x
    · rw [findLastLt_cons_lt hk] at h
      cases hfl : findLastLt t x with
      | none =>
        rw [hfl] at h
        simp only [Option.getD_none, Option.some.injEq] at h
        simp [← h]
      | some e2 =>
        rw [hfl] at h
        simp only [Option.getD_some, Option.some.injEq] at h
        exact List.mem_cons_of_mem _ (h ▸ ih hfl)
    · rw [findLastLt_cons_ge hk] at h
      cases h

theorem lookupKey_cons_ne {k v : Nat} {t : List (Nat × Nat)} {x : Nat}
    (h : k ≠ x) : lookupKey ((k, v) :: t) x = lookupKey t x := by
  simp [lookupKey, h]

theorem lookupKey_none {t : List (Nat × Nat)} {x : Nat}
    (h : ∀ kv ∈ t, kv.1 ≠ x) : lookupKey t x = none := by
  induction t with
  | nil => rfl
  | cons kv t ih =>
    obtain ⟨k, v⟩ := kv
    have hk : k ≠ x := h (k, v) (by simp)
    rw [lookupKey_cons_ne hk]
    exact ih (fun e he => h e (List.mem_cons_of_mem _ he))

theorem removeKey_cons_ne {k v : Nat} {t : List (Nat × Nat)} {x : Nat}
    (h : k ≠ x) : removeKey ((k, v) :: t) x = (k, v) :: removeKey t x := by
  simp [removeKey, h]

theorem removeKey_id {t : List (Nat × Nat)} {x : Nat}
    (h : ∀ kv ∈ t, kv.1 ≠ x) : removeKey t x = t := by
  induction t with
  | nil => rfl
  | cons kv t ih =>
    obtain ⟨k, v⟩ := kv
    rw [removeKey_cons_ne (h (k, v) (by simp))]
    rw [ih (fun e he => h e (List.mem_cons_of_mem _ he))]

theorem removeKey_mem {t : List (Nat × Nat)} {x : Nat} {e : Nat × Nat}
    (h : e ∈ removeKey t x) : e ∈ t := by
  induction t with
  | nil => simp [removeKey] at h
  | cons kv t ih =>
    obtain ⟨k, v⟩ := kv
    by_cases hk : k = x
    · simp only [removeKey, if_pos hk] at h
      exact List.mem_cons_of_mem _ h
    · rw [removeKey_cons_ne hk] at h
      rcases List.mem_cons.mp h with h1 | h2
      · simp [h1]
      · exact List.mem_cons_of_mem _ (ih h2)

theorem setVal_cons_ne {k v : Nat} {t : List (Nat × Nat)} {x nv : Nat}
    (h : k ≠ x) : setVal ((k, v) :: t) x nv = (k, v) :: setVal t x nv := by
  simp [setVal, h]

theorem insertSorted_cons_gt {k0 v0 : Nat} {t : List (Nat × Nat)} {k v : Nat}
    (h : k0 < k) :
    insertSorted ((k0, v0) :: t) k v = (k0, v0) :: insertSorted t k v := by
  simp [insertSorted, Nat.lt_asymm h, Nat.ne_of_gt h]

/-!
Structure lemmas for sorted grant lists and the canonical hole map.
-/

/-- Lower bound on the region starts of a grant list. -/
def startsGe (p : Nat) (gs : List Grant) : Prop :=
  ∀ g ∈ gs, p ≤ g.region.start

theorem startsGe_nil {p : Nat} : startsGe p [] := by
  intro g hg; cases hg

theorem startsGe_mono {p q : Nat} {gs : List Grant} (h : startsGe q gs)
    (hpq : p ≤ q) : startsGe p gs :=
  fun g hg => Nat.le_trans hpq (h g hg)

theorem grantsChain_tail {g : Grant} {t : List Grant}
    (h : grantsChain (g :: t)) : grantsChain t := by
  cases t with
  | nil => trivial
  | cons g2 t2 => exact h.2.2

theorem grantsChain_head_wf {g : Grant} {t : List Grant}
    (h : grantsChain (g :: t)) : regionWf g.region := by
  cases t with
  | nil => exact h
  | cons g2 t2 => exact h.1

theorem grantsChain_head_le {g g2 : Grant} {t : List Grant}
    (h : grantsChain (g :: g2 :: t)) :
    g.region.end_address ≤ g2.region.start := h.2.1

theorem grantsChain_startsGe {g : Grant} {t : List Grant}
    (h : grantsChain (g :: t)) : startsGe g.region.end_address t := by
  induction t generalizing g with
  | nil => exact startsGe_nil
  | cons g2 t2 ih =>
    intro g3 hg3
    rcases List.mem_cons.mp hg3 with h1 | h2
    · subst h1; exact grantsChain_head_le h
    · have hwf2 : regionWf g2.region := grantsChain_head_wf (grantsChain_tail h)
      have := ih (grantsChain_tail h) g3 h2
      have hlt : g.region.end_address ≤ g2.region.end_address := by
        have := grantsChain_head_le h
        unfold Region.end_address at *
        omega
      exact Nat.le_trans hlt this

theorem grantsChain_cons {g : Grant} {t : List Grant}
    (hwf : regionWf g.region) (hch : grantsChain t)
    (hge : startsGe g.region.end_address t) : grantsChain (g :: t) := by
  cases t with
  | nil => exact hwf
  | cons g2 t2 => exact ⟨hwf, hge g2 (by simp), hch⟩

theorem grantsChain_wf_mem {gs : List Grant} {g : Grant}
    (hch : grantsChain gs) (hg : g ∈ gs) : regionWf g.region := by
  induction gs with
  | nil => cases hg
  | cons g0 t ih =>
    rcases List.mem_cons.mp hg with h1 | h2
    · subst h1; exact grantsChain_head_wf hch
    · exact ih (grantsChain_tail hch) h2

theorem grantsChain_rel {gs : List Grant} (hch : grantsChain gs) :
    ∀ g ∈ gs, ∀ h ∈ gs, g = h ∨ g.region.end_address ≤ h.region.start ∨
      h.region.end_address ≤ g.region.start := by
  induction gs with
  | nil => intro g hg; cases hg
  | cons g0 t ih =>
    intro g hg h hh
    rcases List.mem_cons.mp hg with hg1 | hg2 <;>
      rcases List.mem_cons.mp hh with hh1 | hh2
    · subst hg1; subst hh1; exact Or.inl rfl
    · subst hg1
      exact Or.inr (Or.inl (grantsChain_startsGe hch h hh2))
    · subst hh1
      exact Or.inr (Or.inr (grantsChain_startsGe hch g hg2))
    · exact ih (grantsChain_tail hch) g hg2 h hh2

theorem canonicalHoles_key_ge {gs : List Grant} {p : Nat}
    (hch : grantsChain gs) (hge : startsGe p gs) :
    ∀ kv ∈ canonicalHoles p gs, p ≤ kv.1 := by
  induction gs generalizing p with
  | nil =>
    intro kv hkv
    unfold canonicalHoles at hkv
    split at hkv
    · simp at hkv; simp [hkv]
    · cases hkv
  | cons g t ih =>
    intro kv hkv
    have hpg : p ≤ g.region.start := hge g (by simp)
    have hgwf : regionWf g.region := grantsChain_head_wf hch
    have hseg : startsGe g.region.end_address t := grantsChain_startsGe hch
    have hend : p ≤ g.region.end_address := by
      unfold Region.end_address; omega
    unfold canonicalHoles at hkv
    split at hkv
    · rcases List.mem_cons.mp hkv with h1 | h2
      · simp [h1]
      · exact Nat.le_trans hend (ih (grantsChain_tail hch) hseg kv h2)
    · exact Nat.le_trans hend (ih (grantsChain_tail hch) hseg kv hkv)

theorem canonicalHoles_size_pos {gs : List Grant} {p : Nat} :
    ∀ kv ∈ canonicalHoles p gs, 0 < kv.2 := by
  induction gs generalizing p with
  | nil =>
    intro kv hkv
    unfold canonicalHoles at hkv
    split at hkv
    · next hlt =>
      rw [List.mem_singleton] at hkv
      subst hkv
      show 0 < USER_END_OFFSET - p
      omega
    · cases hkv
  | cons g t ih =>
    intro kv hkv
    unfold canonicalHoles at hkv
    split at hkv
    · next hlt =>
      rcases List.mem_cons.mp hkv with h1 | h2
      · subst h1
        show 0 < g.region.start - p
        omega
      · exact ih kv h2
    · exact ih kv hkv

theorem canonicalHoles_bound {gs : List Grant} {p : Nat}
    (hch : grantsChain gs) (hge : startsGe p gs) :
    ∀ kv ∈ canonicalHoles p gs, kv.1 + kv.2 ≤ USER_END_OFFSET := by
  induction gs generalizing p with
  | nil =>
    intro kv hkv
    unfold canonicalHoles at hkv
    split at hkv
    · next hlt =>
      rw [List.mem_singleton] at hkv
      subst hkv
      show p + (USER_END_OFFSET - p) ≤ USER_END_OFFSET
      omega
    · cases hkv
  | cons g t ih =>
    intro kv hkv
    have hgwf : regionWf g.region := grantsChain_head_wf hch
    have hU : g.region.start + g.region.size ≤ USER_END_OFFSET := hgwf.2.2.2
    unfold canonicalHoles at hkv
    split at hkv
    · rcases List.mem_cons.mp hkv with h1 | h2
      · subst h1
        show p + (g.region.start - p) ≤ USER_END_OFFSET
        omega
      · exact ih (grantsChain_tail hch) (grantsChain_startsGe hch) kv h2
    · exact ih (grantsChain_tail hch) (grantsChain_startsGe hch) kv hkv

theorem canonicalHoles_aligned {gs : List Grant} {p : Nat}
    (hch : grantsChain gs) (hp : p % PAGE_SIZE = 0) :
    ∀ kv ∈ canonicalHoles p gs, kv.1 % PAGE_SIZE = 0 ∧ kv.2 % PAGE_SIZE = 0 := by
  induction gs generalizing p with
  | nil =>
    intro kv hkv
    unfold canonicalHoles at hkv
    split at hkv
    · rw [List.mem_singleton] at hkv
      subst hkv
      have hU : USER_END_OFFSET % PAGE_SIZE = 0 := by decide
      refine ⟨hp, ?_⟩
      show (USER_END_OFFSET - p) % PAGE_SIZE = 0
      unfold PAGE_SIZE at *
      omega
    · cases hkv
  | cons g t ih =>
    intro kv hkv
    have hgwf : regionWf g.region := grantsChain_head_wf hch
    have hend : g.region.end_address % PAGE_SIZE = 0 := by
      unfold Region.end_address
      have h1 := hgwf.1
      have h2 := hgwf.2.1
      unfold PAGE_SIZE at *
      omega
    unfold canonicalHoles at hkv
    split at hkv
    · rcases List.mem_cons.mp hkv with h1 | h2
      · subst h1
        refine ⟨hp, ?_⟩
        show (g.region.start - p) % PAGE_SIZE = 0
        have h1 := hgwf.1
        unfold PAGE_SIZE at *
        omega
      · exact ih (grantsChain_tail hch) hend kv h2
    · exact ih (grantsChain_tail hch) hend kv hkv

theorem canonicalHoles_pairwise {gs : List Grant} {p : Nat}
    (hch : grantsChain gs) (hge : startsGe p gs) :
    List.Pairwise (fun h1 h2 => h1.1 + h1.2 < h2.1) (canonicalHoles p gs) := by
  induction gs generalizing p with
  | nil =>
    unfold canonicalHoles
    split
    · exact List.pairwise_singleton _ _
    · exact List.Pairwise.nil
  | cons g t ih =>
    have hgwf : regionWf g.region := grantsChain_head_wf hch
    have hrest := ih (grantsChain_tail hch) (grantsChain_startsGe hch)
    unfold canonicalHoles
    split
    · next hlt =>
      refine List.Pairwise.cons ?_ hrest
      intro kv hkv
      have hk := canonicalHoles_key_ge (grantsChain_tail hch)
        (grantsChain_startsGe hch) kv hkv
      have hsz := hgwf.2.2.1
      unfold Region.end_address at hk
      simp only []
      omega
    · exact hrest

theorem canonicalHoles_mem_iff {gs : List Grant} {p : Nat}
    (hch : grantsChain gs) (hge : startsGe p gs) (a : Nat) :
    (∃ h ∈ canonicalHoles p gs, h.1 ≤ a ∧ a < h.1 + h.2) ↔
      (p ≤ a ∧ a < USER_END_OFFSET ∧
        ∀ g ∈ gs, ¬ (g.region.start ≤ a ∧ a < g.region.end_address)) := by
  induction gs generalizing p with
  | nil =>
    unfold canonicalHoles
    split
    · next hlt =>
      simp only [List.mem_singleton]
      constructor
      · rintro ⟨h, rfl, h2⟩
        exact ⟨h2.1, by omega, fun g hg => absurd hg (List.not_mem_nil g)⟩
      · rintro ⟨h1, h2, _⟩
        exact ⟨(p, USER_END_OFFSET - p), rfl, h1, by omega⟩
    · next hlt =>
      simp only [List.not_mem_nil]
      constructor
      · rintro ⟨h, hf, _⟩; cases hf
      · rintro ⟨h1, h2, _⟩; omega
  | cons g t ih =>
    have hgwf : regionWf g.region := grantsChain_head_wf hch
    have hseg := grantsChain_startsGe hch
    have hpg : p ≤ g.region.start := hge g (by simp)
    have hsz := hgwf.2.2.1
    have hrest := ih (grantsChain_tail hch) hseg
    have htge : ∀ g2 ∈ t, g.region.end_address ≤ g2.region.start := hseg
    unfold canonicalHoles
    split
    · next hlt =>
      constructor
      · rintro ⟨h, hh, hha⟩
        rcases List.mem_cons.mp hh with h1 | h2
        · subst h1
          simp only [] at hha
          have hU : g.region.start + g.region.size ≤ USER_END_OFFSET :=
            hgwf.2.2.2
          refine ⟨by omega, by unfold Region.end_address at *; omega, ?_⟩
          intro g2 hg2
          rcases List.mem_cons.mp hg2 with hg1 | hgt
          · subst hg1; unfold Region.end_address; omega
          · have := htge g2 hgt
            unfold Region.end_address at *
            omega
        · have := hrest.mp ⟨h, h2, hha⟩
          obtain ⟨hq1, hq2, hq3⟩ := this
          refine ⟨by unfold Region.end_address at hq1; omega, hq2, ?_⟩
          intro g2 hg2
          rcases List.mem_cons.mp hg2 with hg1 | hgt
          · subst hg1; unfold Region.end_address at *; omega
          · exact hq3 g2 hgt
      · rintro ⟨h1, h2, h3⟩
        have hng := h3 g (by simp)
        unfold Region.end_address at hng
        by_cases hcase : a < g.region.start
        · exact ⟨(p, g.region.start - p), by simp, by simp; omega⟩
        · have ha2 : g.region.start + g.region.size ≤ a := by omega
          have := hrest.mpr ⟨by unfold Region.end_address; omega, h2,
            fun g2 hg2 => h3 g2 (List.mem_cons_of_mem _ hg2)⟩
          obtain ⟨h, hh, hha⟩ := this
          exact ⟨h, List.mem_cons_of_mem _ hh, hha⟩
    · next hlt =>
      have hpeq : p = g.region.start := by omega
      constructor
      · rintro ⟨h, hh, hha⟩
        have := hrest.mp ⟨h, hh, hha⟩
        obtain ⟨hq1, hq2, hq3⟩ := this
        refine ⟨by unfold Region.end_address at hq1; omega, hq2, ?_⟩
        intro g2 hg2
        rcases List.mem_cons.mp hg2 with hg1 | hgt
        · subst hg1; unfold Region.end_address at *; omega
        · exact hq3 g2 hgt
      · rintro ⟨h1, h2, h3⟩
        have hng := h3 g (by simp)
        unfold Region.end_address at hng
        have := hrest.mpr ⟨by unfold Region.end_address; omega, h2,
          fun g2 hg2 => h3 g2 (List.mem_cons_of_mem _ hg2)⟩
        exact this

/-!
Framing: reserve and unreserve pass over a leading hole that lies strictly
before the affected region.
-/

theorem reservePrev_cons {p s : Nat} {t : List (Nat × Nat)} {gs gend : Nat}
    (hp : p < gs) (hps : p + s ≤ gs) (hg : gs ≤ gend)
    (ht : ∀ kv ∈ t, p < kv.1) :
    UserGrants.reservePrev ((p, s) :: t) gs gend =
      (p, s) :: UserGrants.reservePrev t gs gend := by
  unfold UserGrants.reservePrev
  rw [findLastLt_cons_lt hp]
  cases hfl : findLastLt t gs with
  | none =>
    simp only [Option.getD_none]
    rw [if_neg (by omega), if_neg (by omega)]
  | some e =>
    obtain ⟨k, v⟩ := e
    have hkp : p < k := ht (k, v) (findLastLt_mem hfl)
    simp only [Option.getD_some]
    by_cases h1 : k + v > gs
    · rw [if_pos h1, if_pos h1, setVal_cons_ne (by omega)]
      by_cases h2 : k + v > gend
      · rw [if_pos h2, if_pos h2, insertSorted_cons_gt (by omega)]
      · rw [if_neg h2, if_neg h2]
    · rw [if_neg h1, if_neg h1]
      by_cases h2 : k + v > gend
      · rw [if_pos h2, if_pos h2, insertSorted_cons_gt (by omega)]
      · rw [if_neg h2, if_neg h2]

theorem reserveAt_cons {p s : Nat} {t : List (Nat × Nat)} {gs gsz gend : Nat}
    (hp : p < gs) (hg : gs ≤ gend) :
    UserGrants.reserveAt ((p, s) :: t) gs gsz gend =
      (p, s) :: UserGrants.reserveAt t gs gsz gend := by
  unfold UserGrants.reserveAt
  rw [lookupKey_cons_ne (by omega)]
  cases hlk : lookupKey t gs with
  | none => rfl
  | some hs2 =>
    simp only []
    rw [removeKey_cons_ne (by omega)]
    by_cases h1 : hs2 - gsz > 0
    · rw [if_pos h1, if_pos h1, insertSorted_cons_gt (by omega)]
    · rw [if_neg h1, if_neg h1]

theorem reserveHoles_cons {p s : Nat} {t : List (Nat × Nat)} {gs gsz : Nat}
    (hp : p < gs) (hps : p + s ≤ gs) (ht : ∀ kv ∈ t, p < kv.1) :
    UserGrants.reserveHoles ((p, s) :: t) gs gsz =
      (p, s) :: UserGrants.reserveHoles t gs gsz := by
  unfold UserGrants.reserveHoles
  rw [reservePrev_cons hp hps (by omega) ht, reserveAt_cons hp (by omega)]

theorem unreserveHoles_cons {p s : Nat} {t : List (Nat × Nat)} {gs gsz : Nat}
    (hp : p < gs) (hps : p + s < gs) (ht : ∀ kv ∈ t, p < kv.1) :
    UserGrants.unreserveHoles ((p, s) :: t) gs gsz =
      (p, s) :: UserGrants.unreserveHoles t gs gsz := by
  unfold UserGrants.unreserveHoles
  simp only []
  rw [lookupKey_cons_ne (by omega), removeKey_cons_ne (by omega),
    findLastLt_cons_lt hp]
  cases hfl : findLastLt (removeKey t (gs + gsz)) gs with
  | none =>
    simp only [Option.getD_none]
    rw [if_neg (by omega), insertSorted_cons_gt (by omega)]
  | some e =>
    obtain ⟨k, v⟩ := e
    have hkp : p < k := ht (k, v) (removeKey_mem (findLastLt_mem hfl))
    simp only [Option.getD_some]
    by_cases h1 : k + v = gs
    · rw [if_pos h1, if_pos h1, setVal_cons_ne (by omega)]
    · rw [if_neg h1, if_neg h1, insertSorted_cons_gt (by omega)]

theorem findLastLt_none_keys {t : List (Nat × Nat)} {x : Nat}
    (h : ∀ kv ∈ t, ¬ kv.1 < x) : findLastLt t x = none := by
  cases t with
  | nil => rfl
  | cons kv t2 =>
    obtain ⟨k, v⟩ := kv
    exact findLastLt_cons_ge (h (k, v) (by simp))

theorem insertSorted_front {t : List (Nat × Nat)} {x v : Nat}
    (h : ∀ kv ∈ t, x < kv.1) : insertSorted t x v = (x, v) :: t := by
  cases t with
  | nil => rfl
  | cons kv t2 =>
    obtain ⟨k, u⟩ := kv
    have := h (k, u) (by simp)
    simp [insertSorted, this]

/-- Reserving a region that fits inside the first hole of the map carves the
region out of that hole, leaving the head piece, the tail piece (each when
nonempty) and the untouched later holes. -/
theorem reserve_in_hole {hs hsize gs gsz : Nat} {T : List (Nat × Nat)}
    (h1 : hs ≤ gs) (h2 : gs + gsz ≤ hs + hsize) (h3 : 0 < gsz)
    (hT : ∀ kv ∈ T, hs + hsize ≤ kv.1) :
    UserGrants.reserveHoles ((hs, hsize) :: T) gs gsz =
      (if hs < gs then [(hs, gs - hs)] else []) ++
      (if gs + gsz < hs + hsize then [(gs + gsz, hs + hsize - (gs + gsz))]
       else []) ++ T := by
  unfold UserGrants.reserveHoles
  by_cases hlt : hs < gs
  · -- the hole strictly precedes the region start
    have hin : hs + hsize > gs := by omega
    have hsv : setVal ((hs, hsize) :: T) hs (gs - hs) =
        (hs, gs - hs) :: T := by simp [setVal]
    have hprev : UserGrants.reservePrev ((hs, hsize) :: T) gs (gs + gsz) =
        (hs, gs - hs) ::
          ((if gs + gsz < hs + hsize then
            [(gs + gsz, hs + hsize - (gs + gsz))] else []) ++ T) := by
      unfold UserGrants.reservePrev
      rw [findLastLt_cons_lt hlt, findLastLt_none_keys
        (fun kv hkv => by have := hT kv hkv; omega)]
      simp only [Option.getD_none]
      by_cases hsplit : hs + hsize > gs + gsz
      · rw [if_pos hsplit, if_pos hin, hsv, insertSorted_cons_gt (by omega),
          insertSorted_front (fun kv hkv => by have := hT kv hkv; omega)]
        rw [if_pos (by omega)]
        simp
      · rw [if_neg hsplit, if_pos hin, hsv, if_neg (by omega)]
        simp
    rw [hprev]
    unfold UserGrants.reserveAt
    have hnone : lookupKey ((hs, gs - hs) ::
        ((if gs + gsz < hs + hsize then
          [(gs + gsz, hs + hsize - (gs + gsz))] else []) ++ T)) gs = none := by
      apply lookupKey_none
      intro kv hkv
      rcases List.mem_cons.mp hkv with h | h
      · simp [h]; omega
      · rcases List.mem_append.mp h with h4 | h4
        · by_cases hsplit : gs + gsz < hs + hsize
          · rw [if_pos hsplit] at h4
            rw [List.mem_singleton] at h4
            simp [h4]
            omega
          · rw [if_neg hsplit] at h4
            cases h4
        · have := hT kv h4
          intro hc
          omega
    rw [hnone]
    rw [if_pos hlt]
    simp
  · -- the hole starts exactly at the region start
    have heq : hs = gs := by omega
    subst heq
    have hprev : UserGrants.reservePrev ((hs, hsize) :: T) hs (hs + gsz) =
        (hs, hsize) :: T := by
      unfold UserGrants.reservePrev
      rw [findLastLt_none_keys (fun kv hkv => by
        rcases List.mem_cons.mp hkv with h | h
        · simp [h]
        · have := hT kv h; omega)]
    rw [hprev]
    unfold UserGrants.reserveAt
    have hlk : lookupKey ((hs, hsize) :: T) hs = some hsize := by
      simp [lookupKey]
    have hrm : removeKey ((hs, hsize) :: T) hs = T := by
      simp [removeKey]
    rw [hlk]
    simp only []
    rw [hrm]
    by_cases hsplit : hsize - gsz > 0
    · rw [if_pos hsplit, insertSorted_front
        (fun kv hkv => by have := hT kv hkv; omega)]
      simp only [if_neg (Nat.lt_irrefl hs),
        if_pos (show hs + gsz < hs + hsize by omega)]
      have : hsize - gsz = hs + hsize - (hs + gsz) := by omega
      rw [this]
      simp
    · rw [if_neg hsplit]
      simp only [if_neg (Nat.lt_irrefl hs),
        if_neg (show ¬ hs + gsz < hs + hsize by omega)]
      simp

/-- Inserting a conflict-free well-formed grant turns the canonical hole map
of the grant list into the canonical hole map of the extended list, exactly
as UserGrants::reserve computes it. -/
theorem reserve_canonical :
    ∀ (gs : List Grant) (p : Nat) (g : Grant),
      grantsChain gs → startsGe p gs → regionWf g.region →
      p ≤ g.region.start →
      (∀ G ∈ gs, g.region.end_address ≤ G.region.start ∨
        G.region.end_address ≤ g.region.start) →
      UserGrants.reserveHoles (canonicalHoles p gs) g.region.start
          g.region.size
        = canonicalHoles p (insertGrantSorted gs g)
  | [], p, g, hch, hge, hwf, hpg, hdis => by
    obtain ⟨ha1, ha2, hszpos, hU⟩ := hwf
    have hpU : p < USER_END_OFFSET := by omega
    have hcnil : canonicalHoles p ([] : List Grant) =
        [(p, USER_END_OFFSET - p)] := by
      simp [canonicalHoles, hpU]
    rw [hcnil]
    rw [reserve_in_hole hpg (by omega) hszpos
      (fun kv hkv => by cases hkv)]
    show _ = canonicalHoles p [g]
    have hcg : canonicalHoles p [g] =
        (if p < g.region.start then [(p, g.region.start - p)] else []) ++
          canonicalHoles g.region.end_address [] := by
      by_cases hps : p < g.region.start
      · simp [canonicalHoles, hps]
      · simp [canonicalHoles, hps]
    rw [hcg]
    have hce : canonicalHoles g.region.end_address ([] : List Grant) =
        (if g.region.start + g.region.size < p + (USER_END_OFFSET - p) then
          [(g.region.start + g.region.size,
            p + (USER_END_OFFSET - p) - (g.region.start + g.region.size))]
         else []) := by
      have hend : g.region.end_address = g.region.start + g.region.size := rfl
      by_cases hcut : g.region.start + g.region.size < USER_END_OFFSET
      · rw [if_pos (by omega)]
        simp [canonicalHoles, hend, hcut]
        omega
      · rw [if_neg (by omega)]
        simp [canonicalHoles, hend]
        omega
    rw [hce]
    by_cases hps : p < g.region.start <;> simp [hps]
  | G :: t, p, g, hch, hge, hwf, hpg, hdis => by
    have hGwf : regionWf G.region := grantsChain_head_wf hch
    have hcht : grantsChain t := grantsChain_tail hch
    have hseg : startsGe G.region.end_address t := grantsChain_startsGe hch
    have hpG : p ≤ G.region.start := hge G (by simp)
    have hgend : g.region.end_address = g.region.start + g.region.size := rfl
    have hGend : G.region.end_address = G.region.start + G.region.size := rfl
    have hGsz : 0 < G.region.size := hGwf.2.2.1
    have hTkeys : ∀ kv ∈ canonicalHoles G.region.end_address t,
        G.region.end_address ≤ kv.1 :=
      canonicalHoles_key_ge hcht hseg
    rcases hdis G (by simp) with hbefore | hafter
    · -- g lies entirely before G
      have hglt : g.region.start < G.region.start := by
        rw [hgend] at hbefore
        have := hwf.2.2.1
        omega
      have hins : insertGrantSorted (G :: t) g = g :: G :: t := by
        simp [insertGrantSorted, hglt]
      rw [hins]
      have hpGs : p < G.region.start := by omega
      have hc1 : canonicalHoles p (G :: t) =
          (p, G.region.start - p) :: canonicalHoles G.region.end_address t := by
        simp [canonicalHoles, hpGs]
      rw [hc1]
      rw [reserve_in_hole hpg
        (by rw [hgend] at hbefore; omega) hwf.2.2.1
        (fun kv hkv => by
          have := hTkeys kv hkv
          rw [hGend] at this
          omega)]
      have hcg : canonicalHoles p (g :: G :: t) =
          (if p < g.region.start then [(p, g.region.start - p)] else []) ++
            canonicalHoles g.region.end_address (G :: t) := by
        by_cases hps : p < g.region.start
        · simp [canonicalHoles, hps]
        · simp [canonicalHoles, hps]
      rw [hcg]
      have hce : canonicalHoles g.region.end_address (G :: t) =
          (if g.region.start + g.region.size < p + (G.region.start - p) then
            [(g.region.start + g.region.size,
              p + (G.region.start - p) - (g.region.start + g.region.size))]
           else []) ++ canonicalHoles G.region.end_address t := by
        by_cases hcut : g.region.end_address < G.region.start
        · rw [if_pos (by rw [hgend] at hcut; omega)]
          simp [canonicalHoles, hcut]
          constructor
          · rw [← hgend]
          · rw [← hgend]; omega
        · rw [if_neg (by rw [hgend] at hcut; omega)]
          simp [canonicalHoles, hcut]
      rw [hce]
      by_cases hps : p < g.region.start <;> simp [hps]
    · -- g lies entirely after G
      have hgeG : G.region.end_address ≤ g.region.start := hafter
      have hGlt : G.region.start < g.region.start := by
        rw [hGend] at hgeG
        omega
      have hins : insertGrantSorted (G :: t) g =
          G :: insertGrantSorted t g := by
        simp [insertGrantSorted, Nat.lt_asymm hGlt, Nat.ne_of_gt hGlt]
      rw [hins]
      have hdist : ∀ G2 ∈ t, g.region.end_address ≤ G2.region.start ∨
          G2.region.end_address ≤ g.region.start :=
        fun G2 hG2 => hdis G2 (List.mem_cons_of_mem _ hG2)
      have hih := reserve_canonical t G.region.end_address g hcht hseg hwf
        hgeG hdist
      by_cases hpGs : p < G.region.start
      · have hc1 : canonicalHoles p (G :: t) =
            (p, G.region.start - p) :: canonicalHoles G.region.end_address t := by
          simp [canonicalHoles, hpGs]
        have hc2 : canonicalHoles p (G :: insertGrantSorted t g) =
            (p, G.region.start - p) ::
              canonicalHoles G.region.end_address (insertGrantSorted t g) := by
          simp [canonicalHoles, hpGs]
        rw [hc1, hc2, ← hih]
        exact reserveHoles_cons (by omega)
          (by rw [hGend] at hgeG; omega)
          (fun kv hkv => by
            have := hTkeys kv hkv
            rw [hGend] at this
            omega)
      · have hc1 : canonicalHoles p (G :: t) =
            canonicalHoles G.region.end_address t := by
          simp [canonicalHoles, hpGs]
        have hc2 : canonicalHoles p (G :: insertGrantSorted t g) =
            canonicalHoles G.region.end_address (insertGrantSorted t g) := by
          simp [canonicalHoles, hpGs]
        rw [hc1, hc2, hih]

/-- Unreserving a region flanked by its (optional) left hole ending exactly
at its start and its (optional) right hole starting exactly at its end
coalesces everything into one hole reaching the next boundary `le`. -/
theorem unreserve_merge {p gs gsz le : Nat} {T2 : List (Nat × Nat)}
    (hpG : p ≤ gs) (hsz : 0 < gsz) (hle : gs + gsz ≤ le)
    (hT2 : ∀ kv ∈ T2, le < kv.1) :
    UserGrants.unreserveHoles
      ((if p < gs then [(p, gs - p)] else []) ++
       (if gs + gsz < le then [(gs + gsz, le - (gs + gsz))] else []) ++ T2)
      gs gsz = (p, le - p) :: T2 := by
  unfold UserGrants.unreserveHoles
  simp only []
  by_cases hL : p < gs <;> by_cases hR : gs + gsz < le
  · rw [if_pos hL, if_pos hR]
    simp only [List.cons_append, List.nil_append, List.singleton_append]
    have hlk : lookupKey ((p, gs - p) :: (gs + gsz, le - (gs + gsz)) :: T2)
        (gs + gsz) = some (le - (gs + gsz)) := by
      rw [lookupKey_cons_ne (by omega)]
      simp [lookupKey]
    have hrm : removeKey ((p, gs - p) :: (gs + gsz, le - (gs + gsz)) :: T2)
        (gs + gsz) = (p, gs - p) :: T2 := by
      rw [removeKey_cons_ne (by omega)]
      simp [removeKey]
    rw [hlk, hrm, findLastLt_cons_lt hL,
      findLastLt_none_keys (fun kv hkv => by have := hT2 kv hkv; omega)]
    simp only [Option.getD_none, Option.getD_some]
    rw [if_pos (by omega)]
    have hsv : setVal ((p, gs - p) :: T2) p
        (gs + gsz - p + (le - (gs + gsz))) =
        (p, gs + gsz - p + (le - (gs + gsz))) :: T2 := by
      simp [setVal]
    rw [hsv]
    have : gs + gsz - p + (le - (gs + gsz)) = le - p := by omega
    rw [this]
  · rw [if_pos hL, if_neg hR]
    have hle2 : gs + gsz = le := by omega
    simp only [List.cons_append, List.nil_append]
    have hlk : lookupKey ((p, gs - p) :: T2) (gs + gsz) = none := by
      apply lookupKey_none
      intro kv hkv
      rcases List.mem_cons.mp hkv with h | h
      · simp [h]; omega
      · have := hT2 kv h; omega
    have hrm : removeKey ((p, gs - p) :: T2) (gs + gsz) = (p, gs - p) :: T2 := by
      apply removeKey_id
      intro kv hkv
      rcases List.mem_cons.mp hkv with h | h
      · simp [h]; omega
      · have := hT2 kv h; omega
    rw [hlk, hrm, findLastLt_cons_lt hL,
      findLastLt_none_keys (fun kv hkv => by have := hT2 kv hkv; omega)]
    simp only [Option.getD_none, Option.getD_some]
    rw [if_pos (by omega)]
    have hsv : setVal ((p, gs - p) :: T2) p (gs + gsz - p + 0) =
        (p, gs + gsz - p + 0) :: T2 := by
      simp [setVal]
    rw [hsv]
    have : gs + gsz - p + 0 = le - p := by omega
    rw [this]
  · rw [if_neg hL, if_pos hR]
    have hpeq : p = gs := by omega
    simp only [List.nil_append, List.singleton_append]
    have hlk : lookupKey ((gs + gsz, le - (gs + gsz)) :: T2) (gs + gsz) =
        some (le - (gs + gsz)) := by
      simp [lookupKey]
    have hrm : removeKey ((gs + gsz, le - (gs + gsz)) :: T2) (gs + gsz) =
        T2 := by
      simp [removeKey]
    rw [hlk, hrm, findLastLt_none_keys
      (fun kv hkv => by have := hT2 kv hkv; omega)]
    simp only [Option.getD_some]
    rw [insertSorted_front (fun kv hkv => by have := hT2 kv hkv; omega)]
    have : gsz + (le - (gs + gsz)) = le - p := by omega
    rw [this, hpeq]
  · rw [if_neg hL, if_neg hR]
    have hpeq : p = gs := by omega
    have hle2 : gs + gsz = le := by omega
    simp only [List.nil_append]
    have hlk : lookupKey T2 (gs + gsz) = none := by
      apply lookupKey_none
      intro kv hkv
      have := hT2 kv hkv; omega
    have hrm : removeKey T2 (gs + gsz) = T2 := by
      apply removeKey_id
      intro kv hkv
      have := hT2 kv hkv; omega
    rw [hlk, hrm, findLastLt_none_keys
      (fun kv hkv => by have := hT2 kv hkv; omega)]
    simp only [Option.getD_none]
    rw [insertSorted_front (fun kv hkv => by have := hT2 kv hkv; omega)]
    have : gsz + 0 = le - p := by omega
    rw [this, hpeq]

theorem takeByStart_none {gs : List Grant} {x : Nat} {gs2 : List Grant}
    (h : takeByStart gs x = (none, gs2)) : gs2 = gs := by
  induction gs generalizing gs2 with
  | nil => simp [takeByStart] at h; simp [h]
  | cons g t ih =>
    by_cases hx : g.region.start = x
    · simp [takeByStart, hx] at h
    · simp only [takeByStart, if_neg hx] at h
      cases htb : takeByStart t x with
      | mk r t2 =>
        rw [htb] at h
        simp only [Prod.mk.injEq] at h
        obtain ⟨h1, h2⟩ := h
        subst h1
        rw [← h2, ih htb]

/-- Taking a grant out of a sorted grant list restores the canonical hole
map of the remaining grants, exactly as UserGrants::unreserve computes it. -/
theorem take_canonical :
    ∀ (gs : List Grant) (p x : Nat) (G : Grant) (gs2 : List Grant),
      grantsChain gs → startsGe p gs →
      takeByStart gs x = (some G, gs2) →
      UserGrants.unreserveHoles (canonicalHoles p gs) G.region.start
          G.region.size = canonicalHoles p gs2 ∧
        grantsChain gs2 ∧ startsGe p gs2 ∧ G ∈ gs
  | [], p, x, G, gs2, hch, hge, htb => by
    simp [takeByStart] at htb
  | G0 :: t, p, x, G, gs2, hch, hge, htb => by
    have hG0wf : regionWf G0.region := grantsChain_head_wf hch
    have hcht : grantsChain t := grantsChain_tail hch
    have hseg : startsGe G0.region.end_address t := grantsChain_startsGe hch
    have hpG0 : p ≤ G0.region.start := hge G0 (by simp)
    have hG0end : G0.region.end_address = G0.region.start + G0.region.size := rfl
    have hG0sz : 0 < G0.region.size := hG0wf.2.2.1
    have hsplitc : canonicalHoles p (G0 :: t) =
        (if p < G0.region.start then [(p, G0.region.start - p)] else []) ++
          canonicalHoles G0.region.end_address t := by
      by_cases hps : p < G0.region.start
      · simp [canonicalHoles, hps]
      · simp [canonicalHoles, hps]
    by_cases hx : G0.region.start = x
    · have hGeq : G = G0 ∧ gs2 = t := by
        simp [takeByStart, hx] at htb
        exact ⟨htb.1.symm, htb.2.symm⟩
      obtain ⟨hG, hgs2⟩ := hGeq
      subst hG; subst hgs2
      refine ⟨?_, hcht, startsGe_mono hseg (by rw [hG0end]; omega), by simp⟩
      rw [hsplitc]
      cases gs2 with
      | nil =>
        have hUc : canonicalHoles G.region.end_address ([] : List Grant) =
            (if G.region.start + G.region.size < USER_END_OFFSET then
              [(G.region.start + G.region.size,
                USER_END_OFFSET - (G.region.start + G.region.size))]
             else []) := by
          by_cases hcut : G.region.end_address < USER_END_OFFSET
          · rw [if_pos (by rw [hG0end] at hcut; omega)]
            simp [canonicalHoles, hcut]
            rw [hG0end]
            exact ⟨rfl, rfl⟩
          · rw [if_neg (by rw [hG0end] at hcut; omega)]
            simp [canonicalHoles, hcut]
        rw [hUc]
        have hmerge := @unreserve_merge p G.region.start G.region.size
          USER_END_OFFSET [] hpG0 hG0sz hG0wf.2.2.2
          (fun kv hkv => by cases hkv)
        rw [List.append_nil] at hmerge
        rw [hmerge]
        have hpU : p < USER_END_OFFSET := by
          have := hG0wf.2.2.2
          omega
        simp [canonicalHoles, hpU]
      | cons G1 t2 =>
        have hG1wf : regionWf G1.region := grantsChain_head_wf hcht
        have hGe1 : G.region.end_address ≤ G1.region.start :=
          hseg G1 (by simp)
        have hT2keys : ∀ kv ∈ canonicalHoles G1.region.end_address t2,
            G1.region.start < kv.1 := by
          intro kv hkv
          have := canonicalHoles_key_ge (grantsChain_tail hcht)
            (grantsChain_startsGe hcht) kv hkv
          have : G1.region.end_address ≤ kv.1 := this
          have hG1end : G1.region.end_address =
              G1.region.start + G1.region.size := rfl
          have hG1sz : 0 < G1.region.size := hG1wf.2.2.1
          omega
        have hsplit2 : canonicalHoles G.region.end_address (G1 :: t2) =
            (if G.region.start + G.region.size < G1.region.start then
              [(G.region.start + G.region.size,
                G1.region.start - (G.region.start + G.region.size))]
             else []) ++ canonicalHoles G1.region.end_address t2 := by
          by_cases hcut : G.region.end_address < G1.region.start
          · rw [if_pos (by rw [hG0end] at hcut; omega)]
            simp [canonicalHoles, hcut]
            constructor
            · rw [← hG0end]
            · rw [← hG0end]
          · rw [if_neg (by rw [hG0end] at hcut; omega)]
            simp [canonicalHoles, hcut]
        rw [hsplit2, ← List.append_assoc]
        rw [unreserve_merge hpG0 hG0sz (by rw [hG0end] at hGe1; omega) hT2keys]
        have hpG1 : p < G1.region.start := by
          rw [hG0end] at hGe1
          omega
        simp [canonicalHoles, hpG1]
    · simp only [takeByStart, if_neg hx] at htb
      cases htb2 : takeByStart t x with
      | mk r t2 =>
        rw [htb2] at htb
        simp only [Prod.mk.injEq] at htb
        obtain ⟨h1, h2⟩ := htb
        subst h1
        have hih := take_canonical t G0.region.end_address x G t2 hcht hseg htb2
        obtain ⟨hih1, hih2, hih3, hih4⟩ := hih
        have hGge : G0.region.end_address ≤ G.region.start := hseg G hih4
        subst h2
        refine ⟨?_, grantsChain_cons hG0wf hih2 hih3,
          ?_, List.mem_cons_of_mem _ hih4⟩
        · have hsplitc2 : canonicalHoles p (G0 :: t2) =
              (if p < G0.region.start then [(p, G0.region.start - p)] else []) ++
                canonicalHoles G0.region.end_address t2 := by
            by_cases hps : p < G0.region.start
            · simp [canonicalHoles, hps]
            · simp [canonicalHoles, hps]
          rw [hsplitc, hsplitc2]
          by_cases hps : p < G0.region.start
          · simp only [if_pos hps, List.singleton_append]
            rw [unreserveHoles_cons (by rw [hG0end] at hGge; omega)
              (by rw [hG0end] at hGge; omega)
              (fun kv hkv => by
                have := canonicalHoles_key_ge hcht hseg kv hkv
                rw [hG0end] at this
                omega)]
            rw [hih1]
          · simp only [if_neg hps, List.nil_append]
            exact hih1
        · intro g2 hg2
          rcases List.mem_cons.mp hg2 with h | h
          · subst h; exact hpG0
          · exact Nat.le_trans (by rw [hG0end]; omega) (hih3 g2 h)

/-!
The conflict check: on a well-formed sorted grant list, an empty conflict
iterator for a page-aligned region means the region is disjoint from every
grant.
-/

theorem round_up_pages_eq {n : Nat} (h : n % PAGE_SIZE = 0) :
    round_up_pages n = n := by
  unfold round_up_pages PAGE_SIZE at *
  omega

theorem lastLe_mem {gs : List Grant} {x : Nat} {G : Grant}
    (h : lastLe gs x = some G) : G ∈ gs := by
  induction gs generalizing G with
  | nil => simp [lastLe] at h
  | cons g t ih =>
    by_cases hg : g.region.start ≤ x
    · simp only [lastLe, if_pos hg] at h
      cases hll : lastLe t x with
      | none =>
        rw [hll] at h
        simp only [Option.getD_none, Option.some.injEq] at h
        simp [← h]
      | some G2 =>
        rw [hll] at h
        simp only [Option.getD_some, Option.some.injEq] at h
        exact List.mem_cons_of_mem _ (h ▸ ih hll)
    · simp only [lastLe, if_neg hg] at h
      cases h

theorem lastLe_le {gs : List Grant} {x : Nat} {G : Grant}
    (h : lastLe gs x = some G) : G.region.start ≤ x := by
  induction gs generalizing G with
  | nil => simp [lastLe] at h
  | cons g t ih =>
    by_cases hg : g.region.start ≤ x
    · simp only [lastLe, if_pos hg] at h
      cases hll : lastLe t x with
      | none =>
        rw [hll] at h
        simp only [Option.getD_none, Option.some.injEq] at h
        rw [← h]; exact hg
      | some G2 =>
        rw [hll] at h
        simp only [Option.getD_some, Option.some.injEq] at h
        exact h ▸ ih hll
    · simp only [lastLe, if_neg hg] at h
      cases h

theorem lastLe_exists {gs : List Grant} {x : Nat} {G2 : Grant}
    (hch : grantsChain gs) (hmem : G2 ∈ gs) (hle : G2.region.start ≤ x) :
    ∃ G, lastLe gs x = some G ∧ G2.region.start ≤ G.region.start := by
  induction gs with
  | nil => cases hmem
  | cons g t ih =>
    rcases List.mem_cons.mp hmem with h1 | h2
    · subst h1
      rw [lastLe, if_pos hle]
      cases hll : lastLe t x with
      | none => exact ⟨G2, by simp, Nat.le_refl _⟩
      | some G3 =>
        have hG3t : G3 ∈ t := lastLe_mem hll
        have := grantsChain_startsGe hch G3 hG3t
        refine ⟨G3, by simp, ?_⟩
        unfold Region.end_address at this
        omega
    · have hgx : g.region.start ≤ x := by
        have h3 := grantsChain_startsGe hch G2 h2
        unfold Region.end_address at h3
        omega
      rw [lastLe, if_pos hgx]
      obtain ⟨G, hG, hle2⟩ := ih (grantsChain_tail hch) h2
      rw [hG]
      exact ⟨G, by simp, hle2⟩

theorem contains_some_elim {s : UserGrants} {a : Nat} {H : Grant}
    (h : s.contains a = some H) :
    H ∈ s.inner ∧ H.region.occupies (Region.byte a) = true := by
  unfold UserGrants.contains at h
  cases hll : lastLe s.inner a with
  | none => rw [hll] at h; cases h
  | some H2 =>
    rw [hll] at h
    by_cases hp : H2.region.occupies (Region.byte a) = true
    · rw [Option.filter_some, if_pos hp] at h
      cases h
      exact ⟨lastLe_mem hll, hp⟩
    · rw [Option.filter_some, if_neg hp] at h
      cases h

/-- For a well-formed grant, the occupies test on a one-byte region is the
strict interval membership of that byte, because the last-byte defect of
collides is invisible at page granularity. -/
theorem occupies_byte_iff {G : Grant} {a : Nat} (hwf : regionWf G.region)
    (ha : a % PAGE_SIZE = 0) :
    G.region.occupies (Region.byte a) = true ↔
      (G.region.start ≤ a ∧ a < G.region.end_address) := by
  obtain ⟨h1, h2, h3, h4⟩ := hwf
  unfold Region.occupies Region.collides Region.round Region.byte
    Region.start_address Region.end_address
  rw [round_up_pages_eq h2]
  simp only [Bool.and_eq_true, decide_eq_true_eq]
  unfold PAGE_SIZE at *
  omega

theorem contains_eq_some {s : UserGrants} {G : Grant} {a : Nat}
    (hch : grantsChain s.inner) (hG : G ∈ s.inner)
    (h1 : G.region.start ≤ a) (h2 : a < G.region.end_address)
    (ha : a % PAGE_SIZE = 0) :
    s.contains a = some G := by
  have hwfG : regionWf G.region := grantsChain_wf_mem hch hG
  obtain ⟨H, hH, hle⟩ := lastLe_exists hch hG h1
  have hHmem : H ∈ s.inner := lastLe_mem hH
  have hHle : H.region.start ≤ a := lastLe_le hH
  have hHG : H = G := by
    rcases grantsChain_rel hch G hG H hHmem with h | h | h
    · exact h.symm
    · exfalso
      unfold Region.end_address at h h2
      omega
    · exfalso
      have hwfH : regionWf H.region := grantsChain_wf_mem hch hHmem
      have := hwfH.2.2.1
      unfold Region.end_address at h
      omega
  subst hHG
  unfold UserGrants.contains
  rw [hH, Option.filter_some,
    if_pos ((occupies_byte_iff hwfG ha).mpr ⟨h1, h2⟩)]

theorem chain_dropWhile {gs : List Grant} {H : Grant}
    (hch : grantsChain gs) (hH : H ∈ gs) :
    ∃ t2, gs.dropWhile (fun g => decide (g.region.start < H.region.start)) =
      H :: t2 := by
  induction gs with
  | nil => cases hH
  | cons g t ih =>
    rcases List.mem_cons.mp hH with h1 | h2
    · subst h1
      refine ⟨t, ?_⟩
      rw [List.dropWhile_cons]
      simp
    · have hlt : g.region.start < H.region.start := by
        have h3 := grantsChain_startsGe hch H h2
        have h4 := (grantsChain_head_wf hch).2.2.1
        unfold Region.end_address at h3
        omega
      rw [List.dropWhile_cons]
      simp only [decide_eq_true hlt, if_pos]
      exact ih (grantsChain_tail hch) h2

theorem dropWhile_first {gs : List Grant} {G : Grant} {x : Nat}
    (hch : grantsChain gs) (hG : G ∈ gs) (hnp : ¬ G.region.start < x) :
    ∃ F t2, gs.dropWhile (fun g => decide (g.region.start < x)) = F :: t2 ∧
      F ∈ gs ∧ ¬ F.region.start < x ∧ F.region.start ≤ G.region.start := by
  induction gs with
  | nil => cases hG
  | cons g t ih =>
    by_cases hg : g.region.start < x
    · have hGt : G ∈ t := by
        rcases List.mem_cons.mp hG with h1 | h2
        · subst h1; exact absurd hg hnp
        · exact h2
      rw [List.dropWhile_cons]
      simp only [decide_eq_true hg, if_pos]
      obtain ⟨F, t2, heq, hFmem, hFx, hFle⟩ := ih (grantsChain_tail hch) hGt
      exact ⟨F, t2, heq, List.mem_cons_of_mem _ hFmem, hFx, hFle⟩
    · rw [List.dropWhile_cons]
      simp only [decide_eq_false hg]
      refine ⟨g, t, by simp, by simp, hg, ?_⟩
      rcases List.mem_cons.mp hG with h1 | h2
      · subst h1; exact Nat.le_refl _
      · have h3 := grantsChain_startsGe hch G h2
        unfold Region.end_address at h3
        omega

/-- A nonempty intersection makes the conflicts take_while keep its first
element. -/
theorem intersect_nonempty {F : Region} {r : Region}
    (h1 : max F.start r.start < min (F.start + F.size) (r.start + r.size)) :
    (F.intersect r).is_empty = false := by
  simp only [Region.intersect, Region.between, Region.is_empty,
    Region.start_address, Region.end_address, beq_eq_false_iff_ne, ne_eq]
  omega

theorem conflicts_empty_disjoint {s : UserGrants} {r : Region}
    (hch : grantsChain s.inner) (ha : r.start % PAGE_SIZE = 0)
    (hsz : 0 < r.size) (hc : s.conflicts r = []) :
    ∀ G ∈ s.inner, r.start + r.size ≤ G.region.start ∨
      G.region.end_address ≤ r.start := by
  intro G hG
  by_contra hover
  push_neg at hover
  obtain ⟨ho1, ho2⟩ := hover
  have hwfG : regionWf G.region := grantsChain_wf_mem hch hG
  unfold UserGrants.conflicts Region.start_address at hc
  simp only [] at hc
  cases hcont : s.contains r.start with
  | some H =>
    rw [hcont] at hc
    obtain ⟨hHmem, hHocc⟩ := contains_some_elim hcont
    have hwfH : regionWf H.region := grantsChain_wf_mem hch hHmem
    have hHa := (occupies_byte_iff hwfH ha).mp hHocc
    obtain ⟨t2, hdw⟩ := chain_dropWhile hch hHmem
    simp only [Option.map_some', Option.getD_some] at hc
    rw [hdw] at hc
    rw [List.takeWhile_cons] at hc
    have hpred : (H.region.intersect r).is_empty = false := by
      apply intersect_nonempty
      unfold Region.end_address at hHa
      omega
    rw [hpred] at hc
    simp at hc
  | none =>
    rw [hcont] at hc
    simp only [Option.map_none', Option.getD_none] at hc
    have hrG : r.start ≤ G.region.start := by
      by_contra hlt
      push_neg at hlt
      have := contains_eq_some hch hG (by omega)
        (by unfold Region.end_address at ho2 ⊢; omega) ha
      rw [this] at hcont
      cases hcont
    obtain ⟨F, t2, hdw, hFmem, hFx, hFle⟩ :=
      dropWhile_first hch hG (show ¬ G.region.start < r.start by omega)
    have hwfF : regionWf F.region := grantsChain_wf_mem hch hFmem
    rw [hdw, List.takeWhile_cons] at hc
    have hpred : (F.region.intersect r).is_empty = false := by
      apply intersect_nonempty
      have := hwfF.2.2.1
      omega
    rw [hpred] at hc
    simp at hc

/-!
Invariant preservation for insert, take and operation sequences.
-/

theorem insertGrant_chain :
    ∀ (gs : List Grant) (g : Grant) (p : Nat),
      grantsChain gs → startsGe p gs → regionWf g.region →
      p ≤ g.region.start →
      (∀ G ∈ gs, g.region.end_address ≤ G.region.start ∨
        G.region.end_address ≤ g.region.start) →
      grantsChain (insertGrantSorted gs g) ∧
        startsGe p (insertGrantSorted gs g)
  | [], g, p, hch, hge, hwf, hpg, hdis => by
    refine ⟨hwf, ?_⟩
    intro g2 hg2
    rw [show insertGrantSorted [] g = [g] from rfl, List.mem_singleton] at hg2
    subst hg2
    exact hpg
  | G :: t, g, p, hch, hge, hwf, hpg, hdis => by
    have hGwf : regionWf G.region := grantsChain_head_wf hch
    have hcht : grantsChain t := grantsChain_tail hch
    have hseg : startsGe G.region.end_address t := grantsChain_startsGe hch
    have hpG : p ≤ G.region.start := hge G (by simp)
    rcases hdis G (by simp) with hbefore | hafter
    · have hglt : g.region.start < G.region.start := by
        have := hwf.2.2.1
        unfold Region.end_address at hbefore
        omega
      have hins : insertGrantSorted (G :: t) g = g :: G :: t := by
        simp [insertGrantSorted, hglt]
      rw [hins]
      refine ⟨⟨hwf, hbefore, hch⟩, ?_⟩
      intro g2 hg2
      rcases List.mem_cons.mp hg2 with h1 | h2
      · subst h1; exact hpg
      · exact hge g2 h2
    · have hGlt : G.region.start < g.region.start := by
        have := hGwf.2.2.1
        unfold Region.end_address at hafter
        omega
      have hins : insertGrantSorted (G :: t) g =
          G :: insertGrantSorted t g := by
        simp [insertGrantSorted, Nat.lt_asymm hGlt, Nat.ne_of_gt hGlt]
      rw [hins]
      have hih := insertGrant_chain t g G.region.end_address hcht hseg hwf
        hafter (fun G2 hG2 => hdis G2 (List.mem_cons_of_mem _ hG2))
      refine ⟨grantsChain_cons hGwf hih.1 hih.2, ?_⟩
      intro g2 hg2
      rcases List.mem_cons.mp hg2 with h1 | h2
      · subst h1; exact hge g2 (by simp)
      · exact Nat.le_trans (by unfold Region.end_address; omega)
          (hih.2 g2 h2)

theorem startsGe_zero (gs : List Grant) : startsGe 0 gs :=
  fun _ _ => Nat.zero_le _

theorem insert_some_elim {s s2 : UserGrants} {g : Grant}
    (h : s.insert g = some s2) :
    s.conflicts g.region = [] ∧
      s2 = { inner := insertGrantSorted s.inner g,
             holes := UserGrants.reserveHoles s.holes g.region.start
               g.region.size,
             funmap := s.funmap } := by
  unfold UserGrants.insert at h
  by_cases hc : s.conflicts g.region ≠ []
  · rw [if_pos hc] at h; cases h
  · rw [if_neg hc] at h
    cases h
    exact ⟨by simpa using hc, rfl⟩

theorem insert_inv {s s2 : UserGrants} {g : Grant} (hInv : Inv s)
    (hwf : regionWf g.region) (h : s.insert g = some s2) : Inv s2 := by
  obtain ⟨hch, hholes⟩ := hInv
  obtain ⟨hc, hs2⟩ := insert_some_elim h
  have hdis := conflicts_empty_disjoint hch hwf.1 hwf.2.2.1 hc
  have hdis2 : ∀ G ∈ s.inner, g.region.end_address ≤ G.region.start ∨
      G.region.end_address ≤ g.region.start := by
    intro G hG
    rcases hdis G hG with h1 | h1
    · exact Or.inl (by unfold Region.end_address; omega)
    · exact Or.inr h1
  subst hs2
  constructor
  · exact (insertGrant_chain s.inner g 0 hch (startsGe_zero _) hwf
      (Nat.zero_le _) hdis2).1
  · show UserGrants.reserveHoles s.holes g.region.start g.region.size = _
    rw [hholes]
    exact reserve_canonical s.inner 0 g hch (startsGe_zero _) hwf
      (Nat.zero_le _) hdis2

theorem take_inv {s : UserGrants} {r : Region} (hInv : Inv s) :
    Inv (s.take r).2 := by
  obtain ⟨hch, hholes⟩ := hInv
  unfold UserGrants.take
  cases htb : takeByStart s.inner r.start with
  | mk og inner2 =>
    cases og with
    | none => exact ⟨hch, hholes⟩
    | some g =>
      simp only []
      obtain ⟨h1, h2, h3, _⟩ := take_canonical s.inner 0 r.start g inner2 hch
        (startsGe_zero _) htb
      exact ⟨h2, by rw [hholes]; exact h1⟩

theorem exec_inv :
    ∀ (ops : List Op) (s s2 : UserGrants),
      (∀ op ∈ ops, opWf op) → exec ops s = some s2 → Inv s → Inv s2
  | [], s, s2, hwf, hex, hs => by
    rw [show exec [] s = some s from rfl] at hex
    cases hex
    exact hs
  | op :: t, s, s2, hwf, hex, hs => by
    rw [show exec (op :: t) s = (execOp s op).bind (exec t) from rfl] at hex
    cases hop : execOp s op with
    | none => rw [hop] at hex; cases hex
    | some s1 =>
      rw [hop] at hex
      rw [show (some s1).bind (exec t) = exec t s1 from rfl] at hex
      have hs1 : Inv s1 := by
        cases op with
        | ins g =>
          exact insert_inv hs (hwf (.ins g) (by simp)) hop
        | tak r =>
          have : s1 = (s.take r).2 := by
            unfold execOp at hop
            cases hop
            rfl
          rw [this]
          exact take_inv hs
      exact exec_inv t s1 s2 (fun op2 hop2 => hwf op2
        (List.mem_cons_of_mem _ hop2)) hex hs1

theorem inv_new : Inv UserGrants.new := by decide

theorem takeByStart_insert :
    ∀ (gs : List Grant) (g : Grant),
      grantsChain gs →
      (∀ G ∈ gs, g.region.end_address ≤ G.region.start ∨
        G.region.end_address ≤ g.region.start) →
      0 < g.region.size →
      takeByStart (insertGrantSorted gs g) g.region.start = (some g, gs)
  | [], g, hch, hdis, hsz => by
    simp [insertGrantSorted, takeByStart]
  | G :: t, g, hch, hdis, hsz => by
    have hGwf : regionWf G.region := grantsChain_head_wf hch
    rcases hdis G (by simp) with hbefore | hafter
    · have hglt : g.region.start < G.region.start := by
        unfold Region.end_address at hbefore
        omega
      have hins : insertGrantSorted (G :: t) g = g :: G :: t := by
        simp [insertGrantSorted, hglt]
      rw [hins]
      simp [takeByStart]
    · have hGlt : G.region.start < g.region.start := by
        have := hGwf.2.2.1
        unfold Region.end_address at hafter
        omega
      have hins : insertGrantSorted (G :: t) g =
          G :: insertGrantSorted t g := by
        simp [insertGrantSorted, Nat.lt_asymm hGlt, Nat.ne_of_gt hGlt]
      rw [hins]
      have hih := takeByStart_insert t g (grantsChain_tail hch)
        (fun G2 hG2 => hdis G2 (List.mem_cons_of_mem _ hG2)) hsz
      simp only [takeByStart, if_neg (Nat.ne_of_lt hGlt), hih]

/-!
Claim theorems.
-/

/-- C1: starting from UserGrants::new(), after any sequence of public
mutations (insert of well-formed grants, take/remove), the hole map exactly
partitions `[0, USER_END_OFFSET)` minus the union of the rounded-up grant
regions (every address below USER_END_OFFSET lies in a hole exactly when it
lies in no rounded grant region, the holes stay inside the user half and
are pairwise disjoint), no two holes are adjacent (in the address-sorted
hole map each hole ends strictly before the next begins), and every hole
has positive size. -/
theorem userGrants_hole_invariant (ops : List Op) (s : UserGrants)
    (hwf : ∀ op ∈ ops, opWf op)
    (hex : exec ops UserGrants.new = some s) :
    (∀ a, a < USER_END_OFFSET →
       ((∃ h ∈ s.holes, h.1 ≤ a ∧ a < h.1 + h.2) ↔
        ¬ ∃ g ∈ s.inner, g.region.start ≤ a ∧
            a < g.region.start + round_up_pages g.region.size)) ∧
    (∀ h ∈ s.holes, h.1 + h.2 ≤ USER_END_OFFSET) ∧
    List.Pairwise (fun h1 h2 => h1.1 + h1.2 < h2.1) s.holes ∧
    (∀ h ∈ s.holes, 0 < h.2) := by
  have hInv : Inv s := exec_inv ops UserGrants.new s hwf hex inv_new
  obtain ⟨hch, hholes⟩ := hInv
  have hround : ∀ g ∈ s.inner,
      g.region.start + round_up_pages g.region.size =
        g.region.end_address := by
    intro g hg
    have hwfg := grantsChain_wf_mem hch hg
    rw [round_up_pages_eq hwfg.2.1]
    rfl
  refine ⟨?_, ?_, ?_, ?_⟩
  · intro a haU
    rw [hholes]
    rw [canonicalHoles_mem_iff hch (startsGe_zero _)]
    constructor
    · rintro ⟨_, _, h3⟩
      rintro ⟨g, hg, hga1, hga2⟩
      exact h3 g hg ⟨hga1, by rw [hround g hg] at hga2; exact hga2⟩
    · intro hno
      refine ⟨Nat.zero_le _, haU, ?_⟩
      rintro g hg ⟨hga1, hga2⟩
      exact hno ⟨g, hg, hga1, by rw [hround g hg]; exact hga2⟩
  · rw [hholes]
    exact canonicalHoles_bound hch (startsGe_zero _)
  · rw [hholes]
    exact canonicalHoles_pairwise hch (startsGe_zero _)
  · rw [hholes]
    exact canonicalHoles_size_pos

/-- Witness for C1 at the concrete sequence that inserts one grant covering
`[0x10000, 0x12000)`. -/
theorem userGrants_hole_invariant_witness :
    (∀ op ∈ ([Op.ins ⟨⟨0x10000, 0x2000⟩, 0, true, false, none⟩] : List Op),
       opWf op) ∧
    ((∀ a, a < USER_END_OFFSET →
       ((∃ h ∈ ({ inner := [⟨⟨0x10000, 0x2000⟩, 0, true, false, none⟩],
                  holes := [(0, 0x10000),
                            (0x12000, USER_END_OFFSET - 0x12000)],
                  funmap := [] } : UserGrants).holes,
           h.1 ≤ a ∧ a < h.1 + h.2) ↔
        ¬ ∃ g ∈ ({ inner := [⟨⟨0x10000, 0x2000⟩, 0, true, false, none⟩],
                   holes := [(0, 0x10000),
                             (0x12000, USER_END_OFFSET - 0x12000)],
                   funmap := [] } : UserGrants).inner,
            g.region.start ≤ a ∧
              a < g.region.start + round_up_pages g.region.size)) ∧
     (∀ h ∈ ({ inner := [⟨⟨0x10000, 0x2000⟩, 0, true, false, none⟩],
               holes := [(0, 0x10000), (0x12000, USER_END_OFFSET - 0x12000)],
               funmap := [] } : UserGrants).holes,
        h.1 + h.2 ≤ USER_END_OFFSET) ∧
     List.Pairwise (fun h1 h2 => h1.1 + h1.2 < h2.1)
       ({ inner := [⟨⟨0x10000, 0x2000⟩, 0, true, false, none⟩],
          holes := [(0, 0x10000), (0x12000, USER_END_OFFSET - 0x12000)],
          funmap := [] } : UserGrants).holes ∧
     (∀ h ∈ ({ inner := [⟨⟨0x10000, 0x2000⟩, 0, true, false, none⟩],
               holes := [(0, 0x10000), (0x12000, USER_END_OFFSET - 0x12000)],
               funmap := [] } : UserGrants).holes, 0 < h.2)) :=
  ⟨by decide,
   userGrants_hole_invariant
     [Op.ins ⟨⟨0x10000, 0x2000⟩, 0, true, false, none⟩]
     { inner := [⟨⟨0x10000, 0x2000⟩, 0, true, false, none⟩],
       holes := [(0, 0x10000), (0x12000, USER_END_OFFSET - 0x12000)],
       funmap := [] }
     (by decide) (by decide)⟩

/-- C2: on a state satisfying the container invariants, inserting a
well-formed grant that conflicts with no existing grant (so that insert's
assert passes) and then taking back exactly its region returns that very
grant and leaves the container bit-equal to the pre-insert state. -/
theorem insert_take_roundtrip (s s1 : UserGrants) (g : Grant)
    (hInv : Inv s) (hwf : regionWf g.region)
    (hins : s.insert g = some s1) :
    s1.take g.region = (some g, s) := by
  obtain ⟨hch, hholes⟩ := hInv
  obtain ⟨hc, hs1⟩ := insert_some_elim hins
  have hdis := conflicts_empty_disjoint hch hwf.1 hwf.2.2.1 hc
  have hdis2 : ∀ G ∈ s.inner, g.region.end_address ≤ G.region.start ∨
      G.region.end_address ≤ g.region.start := by
    intro G hG
    rcases hdis G hG with h1 | h1
    · exact Or.inl (by unfold Region.end_address; omega)
    · exact Or.inr h1
  have htb := takeByStart_insert s.inner g hch hdis2 hwf.2.2.1
  have hchI := (insertGrant_chain s.inner g 0 hch (startsGe_zero _) hwf
    (Nat.zero_le _) hdis2).1
  have hun := take_canonical (insertGrantSorted s.inner g) 0 g.region.start
    g s.inner hchI (startsGe_zero _) htb
  subst hs1
  unfold UserGrants.take
  simp only [htb]
  have hres : UserGrants.reserveHoles s.holes g.region.start g.region.size =
      canonicalHoles 0 (insertGrantSorted s.inner g) := by
    rw [hholes]
    exact reserve_canonical s.inner 0 g hch (startsGe_zero _) hwf
      (Nat.zero_le _) hdis2
  show (some g,
    ({ inner := s.inner,
       holes := UserGrants.unreserveHoles
         (UserGrants.reserveHoles s.holes g.region.start g.region.size)
         g.region.start g.region.size,
       funmap := s.funmap } : UserGrants)) = (some g, s)
  rw [hres, hun.1, ← hholes]

/-- Witness for C2: insert a grant covering `[0x10000, 0x12000)` into the
fresh container and take it back. -/
theorem insert_take_roundtrip_witness :
    Inv UserGrants.new ∧
    regionWf (⟨0x10000, 0x2000⟩ : Region) ∧
    UserGrants.new.insert ⟨⟨0x10000, 0x2000⟩, 0, true, false, none⟩ =
      some { inner := [⟨⟨0x10000, 0x2000⟩, 0, true, false, none⟩],
             holes := [(0, 0x10000), (0x12000, USER_END_OFFSET - 0x12000)],
             funmap := [] } ∧
    UserGrants.take
      { inner := [⟨⟨0x10000, 0x2000⟩, 0, true, false, none⟩],
        holes := [(0, 0x10000), (0x12000, USER_END_OFFSET - 0x12000)],
        funmap := [] } ⟨0x10000, 0x2000⟩ =
      (some ⟨⟨0x10000, 0x2000⟩, 0, true, false, none⟩, UserGrants.new) :=
  ⟨by decide, by decide, by decide,
    insert_take_roundtrip UserGrants.new
      { inner := [⟨⟨0x10000, 0x2000⟩, 0, true, false, none⟩],
        holes := [(0, 0x10000), (0x12000, USER_END_OFFSET - 0x12000)],
        funmap := [] }
      ⟨⟨0x10000, 0x2000⟩, 0, true, false, none⟩
      (by decide) (by decide) (by decide)⟩

/-- C3 counterexample: on an invariant-satisfying state with the single
grant `[0x10000, 0x12000)`, the request `[0xF000, 0x11000)` overlaps that
grant, yet find_free_at with MAP_FIXED_NOREPLACE succeeds instead of
failing with EEXIST — the code only checks whether the start address
itself lies inside a grant. -/
theorem find_free_at_overlap_counterexample :
    Inv { inner := [⟨⟨0x10000, 0x2000⟩, 0, true, false, none⟩],
          holes := [(0, 0x10000), (0x12000, USER_END_OFFSET - 0x12000)],
          funmap := [] } ∧
    (0xF000 < 0x10000 + (0x2000 : Nat) ∧ 0x10000 < 0xF000 + (0x2000 : Nat)) ∧
    UserGrants.find_free_at
      { inner := [⟨⟨0x10000, 0x2000⟩, 0, true, false, none⟩],
        holes := [(0, 0x10000), (0x12000, USER_END_OFFSET - 0x12000)],
        funmap := [] } 0xF000 0x2000 ⟨false, true⟩ =
      .ok (Region.new 0xF000 0x2000) :=
  ⟨by decide, by decide, by decide⟩

/-- C3 (amended): on an invariant-satisfying state, a MAP_FIXED_NOREPLACE
request whose page-aligned nonzero start address itself lies inside an
existing grant fails with EEXIST; in particular the spec's example with one
grant at [0x10000, 0x12000) and request (0x11000, 0x1000) does.  (Overlap
that does not cover the start address is not detected, see the
counterexample.) -/
theorem find_free_at_noreplace_eexist (s : UserGrants) (addr size : Nat)
    (flags : MapFlags) (hInv : Inv s) (h0 : addr ≠ 0)
    (ha : addr % PAGE_SIZE = 0) (hb : addr + size ≤ USER_END_OFFSET)
    (hfl : flags.map_fixed_noreplace = true)
    (hocc : ∃ g ∈ s.inner, g.region.start ≤ addr ∧
        addr < g.region.end_address) :
    s.find_free_at addr size flags = .error .EEXIST := by
  obtain ⟨g, hg, hg1, hg2⟩ := hocc
  have hcont : s.contains addr = some g :=
    contains_eq_some hInv.1 hg hg1 hg2 ha
  unfold UserGrants.find_free_at
  rw [if_neg h0]
  rw [if_neg (show ¬ ((Region.new addr size).end_addressU > USER_END_OFFSET ∨
    addr % PAGE_SIZE ≠ 0) from by
      push_neg
      refine ⟨?_, ha⟩
      show (addr + size) % USIZE_MOD ≤ USER_END_OFFSET
      have hm : (addr + size) % USIZE_MOD = addr + size :=
        Nat.mod_eq_of_lt
          (by unfold USER_END_OFFSET at hb; unfold USIZE_MOD; omega)
      omega)]
  rw [show (Region.new addr size).start_address = addr from rfl, hcont]
  simp only []
  rw [if_pos hfl]

/-- Witness for C3 at the spec's EEXIST example. -/
theorem find_free_at_noreplace_eexist_witness :
    (∃ g ∈ ({ inner := [⟨⟨0x10000, 0x2000⟩, 0, true, false, none⟩],
              holes := [(0, 0x10000), (0x12000, USER_END_OFFSET - 0x12000)],
              funmap := [] } : UserGrants).inner,
       g.region.start ≤ 0x11000 ∧ (0x11000 : Nat) < g.region.end_address) ∧
    UserGrants.find_free_at
      { inner := [⟨⟨0x10000, 0x2000⟩, 0, true, false, none⟩],
        holes := [(0, 0x10000), (0x12000, USER_END_OFFSET - 0x12000)],
        funmap := [] } 0x11000 0x1000 ⟨false, true⟩ = .error .EEXIST :=
  ⟨by decide,
   find_free_at_noreplace_eexist
     { inner := [⟨⟨0x10000, 0x2000⟩, 0, true, false, none⟩],
       holes := [(0, 0x10000), (0x12000, USER_END_OFFSET - 0x12000)],
       funmap := [] } 0x11000 0x1000 ⟨false, true⟩
     (by decide) (by decide) (by decide) (by decide) (by decide) (by decide)⟩

/-- C4: on a state satisfying the invariants, find_free scans the holes in
address order (the hole at address 0 counting one page less), and any
returned region has the requested size, starts at max(hole start,
PAGE_SIZE) of the first sufficient hole, and is disjoint from every
existing grant; on the fresh container, find_free(0x4000) returns the
region starting at 0x1000 of size 0x4000. -/
theorem find_free_spec (s : UserGrants) (n : Nat) (hInv : Inv s) :
    (∀ r, s.find_free n = some r →
      r.size = n ∧
      (∃ h, s.holes.find? (UserGrants.sufficientHole n) = some h ∧
        h ∈ s.holes ∧ r.start = max h.1 PAGE_SIZE) ∧
      (∀ g ∈ s.inner, r.start + r.size ≤ g.region.start ∨
        g.region.start + g.region.size ≤ r.start)) ∧
    UserGrants.new.find_free 0x4000 = some (Region.new 0x1000 0x4000) := by
  obtain ⟨hch, hholes⟩ := hInv
  refine ⟨?_, by decide⟩
  intro r hr
  unfold UserGrants.find_free at hr
  cases hf : s.holes.find? (UserGrants.sufficientHole n) with
  | none => rw [hf] at hr; cases hr
  | some h =>
    rw [hf] at hr
    simp only [Option.map_some', Option.some.injEq] at hr
    subst hr
    have hmem : h ∈ s.holes := List.mem_of_find?_eq_some hf
    have hpred : UserGrants.sufficientHole n h = true := List.find?_some hf
    refine ⟨rfl, ⟨h, rfl, hmem, rfl⟩, ?_⟩
    have hmemC : h ∈ canonicalHoles 0 s.inner := by rw [← hholes]; exact hmem
    have hal := canonicalHoles_aligned hch (Nat.zero_mod _) h hmemC
    have hpos := canonicalHoles_size_pos h hmemC
    have hbnd := canonicalHoles_bound hch (startsGe_zero _) h hmemC
    have hsuff2 : (h.1 = 0 ∧ n + PAGE_SIZE ≤ h.2) ∨ (h.1 ≠ 0 ∧ n ≤ h.2) := by
      have hs2 : n ≤ if h.1 = 0 then h.2 - PAGE_SIZE else h.2 := by
        have := hpred
        unfold UserGrants.sufficientHole at this
        exact of_decide_eq_true this
      have hP2 : PAGE_SIZE ≤ h.2 := by
        have h1 := hal.2
        unfold PAGE_SIZE at *
        omega
      by_cases h1 : h.1 = 0
      · rw [if_pos h1] at hs2
        exact Or.inl ⟨h1, by omega⟩
      · rw [if_neg h1] at hs2
        exact Or.inr ⟨h1, hs2⟩
    intro g hg
    have hwfg := grantsChain_wf_mem hch hg
    have hga := hwfg.1
    have hgsz := hwfg.2.2.1
    rw [show (Region.new (max h.1 PAGE_SIZE) n).start = max h.1 PAGE_SIZE
        from rfl,
      show (Region.new (max h.1 PAGE_SIZE) n).size = n from rfl]
    by_contra hcontra
    push_neg at hcontra
    obtain ⟨hco1, hco2⟩ := hcontra
    have hh1a := hal.1
    have hpoint : ∃ a, h.1 ≤ a ∧ a < h.1 + h.2 ∧
        g.region.start ≤ a ∧ a < g.region.start + g.region.size := by
      rcases Nat.eq_zero_or_pos n with hn | hn
      · refine ⟨h.1, Nat.le_refl _, by omega, ?_, ?_⟩
        · unfold PAGE_SIZE at *
          omega
        · unfold PAGE_SIZE at *
          omega
      · refine ⟨max (max h.1 PAGE_SIZE) g.region.start, by omega, ?_,
          by omega, by omega⟩
        unfold PAGE_SIZE at *
        omega
    obtain ⟨a, hp1, hp2, hp3, hp4⟩ := hpoint
    have hiff := (canonicalHoles_mem_iff hch (startsGe_zero _) a).mp
      ⟨h, hmemC, hp1, hp2⟩
    exact hiff.2.2 g hg ⟨hp3, by unfold Region.end_address; omega⟩

/-- Witness for C4 on the fresh container. -/
theorem find_free_spec_witness :
    Inv UserGrants.new ∧
    UserGrants.new.find_free 0x4000 = some (Region.new 0x1000 0x4000) :=
  ⟨by decide, (find_free_spec UserGrants.new 0x4000 (by decide)).2⟩

/-- C6 (code bug): the spec — and the repository's own `region_collides`
unit test, disabled by a `cfg(tests)` typo — require collides(a, b) to hold
iff a.start ≤ b.start < a.end, but the code compares b.end − a.start with
a.size, so the one-byte region at address 1 inside [0, 2) is wrongly
reported as not colliding. -/
theorem collides_code_divergence :
    Region.collides ⟨0, 2⟩ ⟨1, 1⟩ = false ∧
      Region.start_address ⟨0, 2⟩ ≤ Region.start_address ⟨1, 1⟩ ∧
      Region.start_address ⟨1, 1⟩ < Region.end_address ⟨0, 2⟩ := by decide

/-- C7 counterexample: a zero-size request at a valid nonzero aligned
address is not rejected with EINVAL; and a request whose true end addr +
size exceeds the user half is not rejected either when the usize sum wraps
(here to 0, which passes the guard): find_free_at returns both unchanged. -/
theorem find_free_at_zero_size_counterexample :
    UserGrants.find_free_at UserGrants.new 0x1000 0 ⟨false, true⟩ =
      .ok (Region.new 0x1000 0) ∧
    UserGrants.find_free_at UserGrants.new 0x1000 0 ⟨false, true⟩ ≠
      .error .EINVAL ∧
    0x1000 + (USIZE_MOD - 0x1000) > USER_END_OFFSET ∧
    UserGrants.find_free_at UserGrants.new 0x1000 (USIZE_MOD - 0x1000)
      ⟨false, true⟩ = .ok (Region.new 0x1000 (USIZE_MOD - 0x1000)) := by
  decide

/-- C7 (amended): for every state and flags, a request with nonzero address
fails with EINVAL whenever the address is unaligned or its end as the
machine computes it — the usize sum addr + size, wrapping modulo USIZE_MOD —
exceeds the user half; zero size alone is not rejected, and a sum that
wraps back to at most USER_END_OFFSET passes the guard (see the
counterexample). -/
theorem find_free_at_einval (s : UserGrants) (addr size : Nat)
    (flags : MapFlags) (h0 : addr ≠ 0)
    (h : (addr + size) % USIZE_MOD > USER_END_OFFSET ∨
      addr % PAGE_SIZE ≠ 0) :
    s.find_free_at addr size flags = .error .EINVAL := by
  unfold UserGrants.find_free_at
  rw [if_neg h0]
  rw [if_pos (show (Region.new addr size).end_addressU > USER_END_OFFSET ∨
    addr % PAGE_SIZE ≠ 0 from h)]

/-- Witness for C7 at an unaligned address. -/
theorem find_free_at_einval_witness :
    ((0x1001 : Nat) ≠ 0 ∧
      (((0x1001 : Nat) + 0x1000) % USIZE_MOD > USER_END_OFFSET ∨
        (0x1001 : Nat) % PAGE_SIZE ≠ 0)) ∧
    UserGrants.find_free_at UserGrants.new 0x1001 0x1000 ⟨false, false⟩ =
      .error .EINVAL :=
  ⟨⟨by decide, by decide⟩,
   find_free_at_einval UserGrants.new 0x1001 0x1000 ⟨false, false⟩
     (by decide) (by decide)⟩

/-- C5: extracting a page-aligned sub-region fully contained in a mapped
grant yields (before, middle, after): middle is the grant narrowed in place
to exactly the region, before and after cover the leading and trailing
remainders (None exactly when empty) and share the grant's flags and owned
flag with mapped = true and a clone of desc_opt; no page mapper is touched
(extract takes none). -/
theorem grant_extract_spec (g : Grant) (r : Region)
    (hm : g.mapped = true)
    (ha : r.start % PAGE_SIZE = 0) (hsz : r.size % PAGE_SIZE = 0)
    (hc1 : g.region.start ≤ r.start)
    (hc2 : r.start + r.size ≤ g.region.start + g.region.size) :
    g.extract r = some
      ((if g.region.start < r.start then
         some { region := ⟨g.region.start, r.start - g.region.start⟩,
                flags := g.flags, mapped := true, owned := g.owned,
                desc_opt := g.desc_opt } else none),
       { g with region := r },
       (if r.start + r.size < g.region.start + g.region.size then
         some { region := ⟨r.start + r.size,
                  g.region.start + g.region.size - (r.start + r.size)⟩,
                flags := g.flags, mapped := true, owned := g.owned,
                desc_opt := g.desc_opt } else none)) := by
  have hbefore : g.region.before r =
      (if g.region.start < r.start then
        some ⟨g.region.start, r.start - g.region.start⟩ else none) := by
    unfold Region.before Region.between Region.start_address
    rw [Option.filter_some]
    by_cases h1 : g.region.start < r.start
    · rw [if_pos h1, if_pos]
      show (!Region.is_empty ⟨g.region.start, r.start - g.region.start⟩) = true
      unfold Region.is_empty
      simp
      omega
    · rw [if_neg h1, if_neg]
      show ¬ (!Region.is_empty ⟨g.region.start, r.start - g.region.start⟩) = true
      unfold Region.is_empty
      simp
      omega
  have hafter : g.region.after r =
      (if r.start + r.size < g.region.start + g.region.size then
        some ⟨r.start + r.size,
          g.region.start + g.region.size - (r.start + r.size)⟩ else none) := by
    unfold Region.after Region.between Region.end_address
    rw [Option.filter_some]
    by_cases h1 : r.start + r.size < g.region.start + g.region.size
    · rw [if_pos h1, if_pos]
      show (!Region.is_empty ⟨r.start + r.size,
        g.region.start + g.region.size - (r.start + r.size)⟩) = true
      unfold Region.is_empty
      simp
      omega
    · rw [if_neg h1, if_neg]
      show ¬ (!Region.is_empty ⟨r.start + r.size,
        g.region.start + g.region.size - (r.start + r.size)⟩) = true
      unfold Region.is_empty
      simp
      omega
  unfold Grant.extract
  rw [if_neg (show ¬ (r.start % PAGE_SIZE ≠ 0) from by simp [ha])]
  rw [if_neg (show ¬ (r.size % PAGE_SIZE ≠ 0) from by simp [hsz])]
  rw [if_neg (show ¬ ¬ (g.region.start_address ≤ r.start_address ∧
      r.end_address ≤ g.region.end_address) from by
    push_neg
    exact ⟨hc1, hc2⟩)]
  simp only [hbefore, hafter, hm]
  by_cases h1 : g.region.start < r.start <;>
    by_cases h2 : r.start + r.size < g.region.start + g.region.size <;>
      simp [h1, h2]

/-- Witness for C5: the spec's 4-page example split 1+2+1. -/
theorem grant_extract_spec_witness :
    (⟨⟨0, 0x4000⟩, 7, true, true, some 3⟩ : Grant).extract ⟨0x1000, 0x2000⟩ =
      some (some ⟨⟨0, 0x1000⟩, 7, true, true, some 3⟩,
            ⟨⟨0x1000, 0x2000⟩, 7, true, true, some 3⟩,
            some ⟨⟨0x3000, 0x1000⟩, 7, true, true, some 3⟩) := by
  have h := grant_extract_spec ⟨⟨0, 0x4000⟩, 7, true, true, some 3⟩
    ⟨0x1000, 0x2000⟩ rfl (by decide) (by decide) (by decide) (by decide)
  rw [if_pos (by decide), if_pos (by decide)] at h
  exact h

/-- C9: on the (owner, count) lock state, a successful acquisition that is
reentrant (the CPU already holds the lock, previous count at least 1)
produces a guard with ro = true whose get_mut is None, while a first
acquisition (previous count 0) produces ro = false and get_mut returning
the mapper. -/
theorem kernel_lock_reentrant_ro (s s2 : KernelLock.LockState)
    (cpu m : Nat) (g : KernelLock.Guard)
    (h : KernelLock.lock_for_manual_mapper s cpu m = some (s2, g)) :
    (1 ≤ s.count → g.ro = true ∧ KernelLock.get_mut g = none) ∧
    (s.count = 0 → g.ro = false ∧ KernelLock.get_mut g = some m) := by
  unfold KernelLock.lock_for_manual_mapper KernelLock.lock_inner at h
  by_cases hc : s.owner = KernelLock.NO_PROCESSOR ∨ s.owner = cpu
  · rw [if_pos hc] at h
    simp only [Option.map_some', Option.some.injEq, Prod.mk.injEq] at h
    obtain ⟨h1, h2⟩ := h
    subst h2
    constructor
    · intro hcnt
      have hro : decide (s.count > 0) = true := by simp; omega
      refine ⟨hro, ?_⟩
      unfold KernelLock.get_mut
      rw [show ({ mapper := m, ro := decide (s.count > 0) } :
        KernelLock.Guard).ro = decide (s.count > 0) from rfl, hro]
      simp
    · intro hcnt
      have hro : decide (s.count > 0) = false := by simp; omega
      refine ⟨hro, ?_⟩
      unfold KernelLock.get_mut
      rw [show ({ mapper := m, ro := decide (s.count > 0) } :
        KernelLock.Guard).ro = decide (s.count > 0) from rfl, hro]
      simp
  · rw [if_neg hc] at h
    cases h

/-- Witness for C9: a reentrant acquisition by CPU 5 holding count 1. -/
theorem kernel_lock_reentrant_ro_witness :
    KernelLock.lock_for_manual_mapper ⟨5, 1⟩ 5 42 =
      some (⟨5, 2⟩, ⟨42, true⟩) ∧
    ((1 ≤ (⟨5, 1⟩ : KernelLock.LockState).count →
       (⟨42, true⟩ : KernelLock.Guard).ro = true ∧
       KernelLock.get_mut ⟨42, true⟩ = none) ∧
     ((⟨5, 1⟩ : KernelLock.LockState).count = 0 →
       (⟨42, true⟩ : KernelLock.Guard).ro = false ∧
       KernelLock.get_mut ⟨42, true⟩ = some 42)) :=
  ⟨by decide,
   kernel_lock_reentrant_ro ⟨5, 1⟩ ⟨5, 2⟩ 5 42 ⟨42, true⟩ (by decide)⟩

/-!
The memory-map normalizer: page alignment and positive sizes are invariant;
sortedness and disjointness are not (C8 counterexample).
-/

/-- The per-entry shape the normalizer actually guarantees. -/
def areaOk (a : Nat × Nat) : Prop :=
  a.1 % PAGE_SIZE = 0 ∧ a.2 % PAGE_SIZE = 0 ∧ 0 < a.2

instance (a : Nat × Nat) : Decidable (areaOk a) := by
  unfold areaOk; infer_instance

theorem uadd_aligned {a b : Nat} (ha : a % PAGE_SIZE = 0)
    (hb : b % PAGE_SIZE = 0) : Rmm.uadd a b % PAGE_SIZE = 0 := by
  unfold Rmm.uadd Rmm.U32 PAGE_SIZE at *
  omega

theorem combineAreas_ok :
    ∀ (areas : List (Nat × Nat)) (base size : Nat),
      (∀ a ∈ areas, areaOk a) →
      base % PAGE_SIZE = 0 → size % PAGE_SIZE = 0 →
      (∀ a ∈ (Rmm.combineAreas areas base size).1, areaOk a) ∧
        (Rmm.combineAreas areas base size).2 % PAGE_SIZE = 0
  | [], base, size, hok, hb, hs => by
    refine ⟨?_, hs⟩
    intro a ha
    cases ha
  | (ob, osz) :: t, base, size, hok, hb, hs => by
    have hhd : areaOk (ob, osz) := hok (ob, osz) (by simp)
    have htl : ∀ a ∈ t, areaOk a :=
      fun a ha => hok a (List.mem_cons_of_mem _ ha)
    unfold Rmm.combineAreas
    by_cases hcond : base < Rmm.uadd ob osz ∧ Rmm.uadd base size > ob
    · rw [if_pos hcond]
      have hih := combineAreas_ok t base 0 htl hb (by decide)
      simp only []
      cases hrec : Rmm.combineAreas t base 0 with
      | mk t2 size2 =>
        rw [hrec] at hih
        refine ⟨?_, hih.2⟩
        intro a ham
        rcases List.mem_cons.mp ham with h1 | h1
        · subst h1
          have hnb : min base ob % PAGE_SIZE = 0 := by
            have := hhd.1
            unfold PAGE_SIZE at *
            omega
          have hm1 : Rmm.uadd base size % PAGE_SIZE = 0 := uadd_aligned hb hs
          have hm2 : Rmm.uadd ob osz % PAGE_SIZE = 0 :=
            uadd_aligned hhd.1 hhd.2.1
          refine ⟨hnb, ?_, ?_⟩
          · show (max (Rmm.uadd base size) (Rmm.uadd ob osz) - min base ob) %
              PAGE_SIZE = 0
            have := hhd.1
            unfold PAGE_SIZE at *
            omega
          · show 0 < max (Rmm.uadd base size) (Rmm.uadd ob osz) - min base ob
            obtain ⟨hc1, hc2⟩ := hcond
            omega
        · exact hih.1 a h1
    · rw [if_neg hcond]
      have hih := combineAreas_ok t base size htl hb hs
      simp only []
      cases hrec : Rmm.combineAreas t base size with
      | mk t2 size2 =>
        rw [hrec] at hih
        refine ⟨?_, hih.2⟩
        intro a ham
        rcases List.mem_cons.mp ham with h1 | h1
        · subst h1; exact hhd
        · exact hih.1 a h1

theorem foldl_carve_aligned :
    ∀ (resv : List (Nat × Nat)) (nb base1 size2 : Nat),
      (∀ rr ∈ resv, rr.1 % PAGE_SIZE = 0 ∧ rr.2 % PAGE_SIZE = 0) →
      nb % PAGE_SIZE = 0 →
      (resv.foldl
        (fun nb2 rr =>
          if base1 < Rmm.uadd rr.1 rr.2 ∧ Rmm.uadd base1 size2 > rr.1 then
            max nb2 (Rmm.uadd rr.1 rr.2)
          else nb2) nb) % PAGE_SIZE = 0
  | [], nb, base1, size2, hres, hnb => hnb
  | rr :: t, nb, base1, size2, hres, hnb => by
    rw [List.foldl_cons]
    apply foldl_carve_aligned t _ base1 size2
      (fun rr2 h2 => hres rr2 (List.mem_cons_of_mem _ h2))
    by_cases hcond : base1 < Rmm.uadd rr.1 rr.2 ∧ Rmm.uadd base1 size2 > rr.1
    · rw [if_pos hcond]
      have h1 := hres rr (by simp)
      have h2 : Rmm.uadd rr.1 rr.2 % PAGE_SIZE = 0 := uadd_aligned h1.1 h1.2
      unfold PAGE_SIZE at *
      omega
    · rw [if_neg hcond]
      exact hnb

theorem processEntry_ok (resv : List (Nat × Nat)) (areas : List (Nat × Nat))
    (e : Rmm.BootloaderMemoryEntry)
    (hresv : ∀ rr ∈ resv, rr.1 % PAGE_SIZE = 0 ∧ rr.2 % PAGE_SIZE = 0)
    (hareas : ∀ a ∈ areas, areaOk a) :
    ∀ a ∈ Rmm.processEntry resv areas e, areaOk a := by
  unfold Rmm.processEntry
  by_cases hkind : e.kind ≠ 1
  · rw [if_pos hkind]; exact hareas
  rw [if_neg hkind]
  by_cases hoff : (PAGE_SIZE - e.base % Rmm.U32 % PAGE_SIZE) % PAGE_SIZE >
      e.size % Rmm.U32
  · rw [if_pos hoff]; exact hareas
  rw [if_neg hoff]
  simp only []
  intro a ham
  have hb1 : Rmm.uadd (e.base % Rmm.U32)
      ((PAGE_SIZE - e.base % Rmm.U32 % PAGE_SIZE) % PAGE_SIZE) % PAGE_SIZE
        = 0 := by
    unfold Rmm.uadd Rmm.U32 PAGE_SIZE
    omega
  have hs2 : (e.size % Rmm.U32 -
      (PAGE_SIZE - e.base % Rmm.U32 % PAGE_SIZE) % PAGE_SIZE -
      (e.size % Rmm.U32 -
        (PAGE_SIZE - e.base % Rmm.U32 % PAGE_SIZE) % PAGE_SIZE) % PAGE_SIZE) %
      PAGE_SIZE = 0 := by
    unfold PAGE_SIZE
    omega
  set base1 := Rmm.uadd (e.base % Rmm.U32)
    ((PAGE_SIZE - e.base % Rmm.U32 % PAGE_SIZE) % PAGE_SIZE) with hbase1
  set size1 := e.size % Rmm.U32 -
    (PAGE_SIZE - e.base % Rmm.U32 % PAGE_SIZE) % PAGE_SIZE with hsize1
  set size2 := size1 - size1 % PAGE_SIZE with hsize2
  set new_base := resv.foldl
    (fun nb rr =>
      if base1 < Rmm.uadd rr.1 rr.2 ∧ Rmm.uadd base1 size2 > rr.1 then
        max nb (Rmm.uadd rr.1 rr.2)
      else nb) base1 with hnewbase
  have hnb : new_base % PAGE_SIZE = 0 :=
    foldl_carve_aligned resv base1 base1 size2 hresv hb1
  set base3 := if new_base ≠ base1 then new_base else base1 with hbase3
  set size3 := if new_base ≠ base1 then Rmm.uadd base1 size2 - new_base
    else size2 with hsize3
  have hb3 : base3 % PAGE_SIZE = 0 := by
    rw [hbase3]
    by_cases hne : new_base ≠ base1
    · rw [if_pos hne]; exact hnb
    · rw [if_neg hne]; exact hb1
  have hs3 : size3 % PAGE_SIZE = 0 := by
    rw [hsize3]
    by_cases hne : new_base ≠ base1
    · rw [if_pos hne]
      have hu : Rmm.uadd base1 size2 % PAGE_SIZE = 0 := uadd_aligned hb1 hs2
      unfold PAGE_SIZE at *
      omega
    · rw [if_neg hne]; exact hs2
  set size4 := if base3 ≥ 0x40000000 then 0
    else if Rmm.uadd base3 size3 > 0x40000000 then 0x40000000 - base3
    else size3 with hsize4
  have hs4 : size4 % PAGE_SIZE = 0 := by
    rw [hsize4]
    by_cases hc1 : base3 ≥ 0x40000000
    · rw [if_pos hc1]; decide
    · rw [if_neg hc1]
      by_cases hc2 : Rmm.uadd base3 size3 > 0x40000000
      · rw [if_pos hc2]
        unfold PAGE_SIZE at *
        omega
      · rw [if_neg hc2]; exact hs3
  have hcomb := combineAreas_ok areas base3 size4 hareas hb3 hs4
  cases hrec : Rmm.combineAreas areas base3 size4 with
  | mk t2 sz2 =>
    rw [hrec] at hcomb ham
    by_cases hz : sz2 = 0
    · rw [if_pos hz] at ham
      exact hcomb.1 a ham
    · rw [if_neg hz] at ham
      rcases List.mem_append.mp ham with h1 | h1
      · exact hcomb.1 a h1
      · rw [List.mem_singleton] at h1
        subst h1
        exact ⟨hb3, hcomb.2, by omega⟩

theorem initAreas_ok (resv : List (Nat × Nat))
    (entries : List Rmm.BootloaderMemoryEntry)
    (hresv : ∀ rr ∈ resv, rr.1 % PAGE_SIZE = 0 ∧ rr.2 % PAGE_SIZE = 0) :
    ∀ a ∈ Rmm.initAreas resv entries, areaOk a := by
  suffices h : ∀ (es : List Rmm.BootloaderMemoryEntry)
      (acc : List (Nat × Nat)), (∀ a ∈ acc, areaOk a) →
      ∀ a ∈ es.foldl (Rmm.processEntry resv) acc, areaOk a by
    exact h entries [] (fun a ha => by cases ha)
  intro es
  induction es with
  | nil => intro acc hacc; exact hacc
  | cons e t ih =>
    intro acc hacc
    rw [List.foldl_cons]
    exact ih _ (processEntry_ok resv acc e hresv hacc)

/-- C8 counterexample: with empty reserved ranges, the firmware map
[0x300000,+0x1000 Free; 0x100000,+0x1000 Free; 0x100000,+0x201000 Free]
normalizes to two areas (0x100000, 0x201000) and (0x100000, 0x1000) that
overlap each other and are not in increasing base order: the merge loop
expands an earlier entry without re-checking it against the others. -/
theorem init_areas_counterexample :
    Rmm.init 0 0 0 0 0 0 0 0 0 0
      [⟨0x300000, 0x1000, 1⟩, ⟨0x100000, 0x1000, 1⟩, ⟨0x100000, 0x201000, 1⟩]
      = [(0x100000, 0x201000), (0x100000, 0x1000)] ∧
    ((0x100000 : Nat) < 0x100000 + 0x1000 ∧
      (0x100000 : Nat) < 0x100000 + 0x201000 ∧
      ¬ (0x100000 : Nat) < 0x100000) := by
  constructor
  · decide
  · decide

/-- C8 (amended): every entry of the area table built by init has
page-aligned base and size and positive size, provided the reserved-range
base addresses are page-aligned (their sizes are aligned by init itself);
the table is not in general sorted or non-overlapping, see the
counterexample. -/
theorem init_areas_aligned (kb ks sb ss eb es ab asz ib isz : Nat)
    (hkb : kb % PAGE_SIZE = 0) (hsb : sb % PAGE_SIZE = 0)
    (heb : eb % PAGE_SIZE = 0) (hab : ab % PAGE_SIZE = 0)
    (hib : ib % PAGE_SIZE = 0)
    (entries : List Rmm.BootloaderMemoryEntry) :
    ∀ a ∈ Rmm.init kb ks sb ss eb es ab asz ib isz entries,
      a.1 % PAGE_SIZE = 0 ∧ a.2 % PAGE_SIZE = 0 ∧ 0 < a.2 := by
  have halign : ∀ sz : Nat, Rmm.alignUp sz % PAGE_SIZE = 0 := by
    intro sz
    unfold Rmm.alignUp PAGE_SIZE
    omega
  intro a ha
  exact initAreas_ok _ entries (by
    intro rr hrr
    simp only [List.mem_cons, List.not_mem_nil, or_false] at hrr
    rcases hrr with h | h | h | h | h | h <;> subst h
    · exact ⟨by decide, by decide⟩
    · exact ⟨hkb, halign ks⟩
    · exact ⟨hsb, halign ss⟩
    · exact ⟨heb, halign es⟩
    · exact ⟨hab, halign asz⟩
    · exact ⟨hib, halign isz⟩) a ha

/-- Witness for C8 on a one-entry firmware map. -/
theorem init_areas_aligned_witness :
    ((0 : Nat) % PAGE_SIZE = 0) ∧
    ∀ a ∈ Rmm.init 0 0 0 0 0 0 0 0 0 0 [⟨0x200000, 0x3000, 1⟩],
      a.1 % PAGE_SIZE = 0 ∧ a.2 % PAGE_SIZE = 0 ∧ 0 < a.2 :=
  ⟨by decide,
   init_areas_aligned 0 0 0 0 0 0 0 0 0 0 (by decide) (by decide) (by decide)
     (by decide) (by decide) [⟨0x200000, 0x3000, 1⟩]⟩

/-!
The copy_inner error path: the first loop up to the failing map, and the
rollback loop undoing exactly the pages it mapped.
-/

theorem copyLoop_break (sb db : Nat) (canMap : Nat → Bool) (fr : Nat → Nat)
    (srcM : Copy.Mapper) (k : Nat) (hcm : canMap k = false) :
    ∀ (m a : Nat) (d : Copy.Mapper) (sc : Nat),
      a ≤ k → k < a + m →
      (∀ i, a ≤ i → i < a + m →
        Copy.translate srcM (sb + i * PAGE_SIZE) = some (fr i)) →
      (∀ i, a ≤ i → i < k → canMap i = true) →
      Copy.copyLoop sb db canMap false (List.range' a m) srcM d sc =
        some (srcM, (List.range' a (k - a)).foldl
          (fun d2 i => (db + i * PAGE_SIZE, fr i) :: d2) d,
          if a = k then sc else k)
  | 0, a, d, sc, hak, hkm, hsrc, hmin => by omega
  | m + 1, a, d, sc, hak, hkm, hsrc, hmin => by
    rw [show List.range' a (m + 1) = a :: List.range' (a + 1) m from rfl]
    unfold Copy.copyLoop
    simp only []
    rw [if_neg (show ¬ (false = true) from by decide)]
    rw [hsrc a (Nat.le_refl _) (by omega)]
    simp only [Option.map_some']
    by_cases hae : a = k
    · have hcma : canMap a = false := by rw [hae]; exact hcm
      rw [show Copy.map_phys d (db + a * PAGE_SIZE) (fr a) (canMap a) = none
        from by rw [hcma]; rfl]
      rw [show k - a = 0 from by omega]
      simp [hae]
    · have hcma : canMap a = true := hmin a (Nat.le_refl _) (by omega)
      rw [show Copy.map_phys d (db + a * PAGE_SIZE) (fr a) (canMap a) =
        some ((db + a * PAGE_SIZE, fr a) :: d) from by
          rw [hcma]; rfl]
      simp only []
      rw [copyLoop_break sb db canMap fr srcM k hcm m (a + 1)
        ((db + a * PAGE_SIZE, fr a) :: d) (a + 1) (by omega) (by omega)
        (fun i h1 h2 => hsrc i (by omega) (by omega))
        (fun i h1 h2 => hmin i (by omega) h2)]
      rw [show k - a = (k - (a + 1)) + 1 from by omega,
        show List.range' a ((k - (a + 1)) + 1) =
          a :: List.range' (a + 1) (k - (a + 1)) from rfl,
        List.foldl_cons]
      rw [if_neg hae]
      by_cases hae2 : a + 1 = k
      · rw [if_pos hae2, hae2]
      · rw [if_neg hae2]

theorem foldl_push_frame (db : Nat) (fr : Nat → Nat) :
    ∀ (j a2 : Nat) (W : Copy.Mapper) (x : Nat),
      (∀ i, a2 ≤ i → i < a2 + j → db + i * PAGE_SIZE ≠ x) →
      lookupKey ((List.range' a2 j).foldl
          (fun d2 i => (db + i * PAGE_SIZE, fr i) :: d2) W) x = lookupKey W x ∧
      removeKey ((List.range' a2 j).foldl
          (fun d2 i => (db + i * PAGE_SIZE, fr i) :: d2) W) x =
        (List.range' a2 j).foldl
          (fun d2 i => (db + i * PAGE_SIZE, fr i) :: d2) (removeKey W x)
  | 0, a2, W, x, hne => ⟨rfl, rfl⟩
  | j + 1, a2, W, x, hne => by
    rw [show List.range' a2 (j + 1) = a2 :: List.range' (a2 + 1) j from rfl,
      List.foldl_cons]
    have hih := foldl_push_frame db fr j (a2 + 1)
      ((db + a2 * PAGE_SIZE, fr a2) :: W) x
      (fun i h1 h2 => hne i (by omega) (by omega))
    have hx : db + a2 * PAGE_SIZE ≠ x := hne a2 (Nat.le_refl _) (by omega)
    refine ⟨?_, ?_⟩
    · rw [hih.1, lookupKey_cons_ne hx]
    · rw [hih.2, removeKey_cons_ne hx, List.foldl_cons]

theorem rollbackLoop_spec (db : Nat) (owned : Bool) (fr : Nat → Nat) :
    ∀ (j a : Nat) (d : Copy.Mapper) (freed : List Nat),
      Copy.rollbackLoop db owned (List.range' a j)
        ((List.range' a j).foldl
          (fun d2 i => (db + i * PAGE_SIZE, fr i) :: d2) d) freed =
      some (d, freed ++ (if owned then (List.range' a j).map fr else []))
  | 0, a, d, freed => by
    cases owned <;> simp [Copy.rollbackLoop]
  | j + 1, a, d, freed => by
    rw [show List.range' a (j + 1) = a :: List.range' (a + 1) j from rfl,
      List.foldl_cons]
    unfold Copy.rollbackLoop
    have hfr := foldl_push_frame db fr j (a + 1)
      ((db + a * PAGE_SIZE, fr a) :: d) (db + a * PAGE_SIZE)
      (fun i h1 h2 => by
        intro hcon
        unfold PAGE_SIZE at hcon
        omega)
    have hlk : lookupKey ((List.range' (a + 1) j).foldl
        (fun d2 i => (db + i * PAGE_SIZE, fr i) :: d2)
        ((db + a * PAGE_SIZE, fr a) :: d)) (db + a * PAGE_SIZE) =
        some (fr a) := by
      rw [hfr.1]
      simp [lookupKey]
    have hrm : removeKey ((List.range' (a + 1) j).foldl
        (fun d2 i => (db + i * PAGE_SIZE, fr i) :: d2)
        ((db + a * PAGE_SIZE, fr a) :: d)) (db + a * PAGE_SIZE) =
        (List.range' (a + 1) j).foldl
          (fun d2 i => (db + i * PAGE_SIZE, fr i) :: d2) d := by
      rw [hfr.2]
      simp [removeKey]
    unfold Copy.unmap_phys
    rw [hlk]
    simp only [Option.map_some']
    rw [hrm]
    rw [rollbackLoop_spec db owned fr j (a + 1) d
      (if owned then freed ++ [fr a] else freed)]
    cases owned
    · simp
    · simp

/-- C10: when copy_inner runs with unmap = false (borrow/reborrow) over a
fully mapped source range into an initially unmapped destination range and
the destination map of page k fails (allocation returns None), it unmaps
every destination page it had mapped before index k, frees the recovered
frames exactly when the grant would have been owned, and returns Err with
the destination mapper (and the source mapper) left exactly as they were. -/
theorem copy_inner_rollback (sb db n flags : Nat) (desc : Option Nat)
    (srcM dstM : Copy.Mapper) (canMap : Nat → Bool) (owned : Bool)
    (fr : Nat → Nat) (k : Nat)
    (hsrc : ∀ i, i < n →
      Copy.translate srcM (sb + i * PAGE_SIZE) = some (fr i))
    (_hdst : ∀ i, i < n →
      Copy.translate dstM (db + i * PAGE_SIZE) = none)
    (hk : k < n) (hcm : canMap k = false)
    (hmin : ∀ i, i < k → canMap i = true) :
    Copy.copy_inner sb db n flags desc srcM dstM canMap owned false =
      some { srcM := srcM, dstM := dstM,
             freed := if owned then (List.range k).map fr else [],
             out := .error () } := by
  unfold Copy.copy_inner
  rw [List.range_eq_range']
  rw [copyLoop_break sb db canMap fr srcM k hcm n 0 dstM 0 (Nat.zero_le _)
    (by omega) (fun i h1 h2 => hsrc i (by omega))
    (fun i h1 h2 => hmin i h2)]
  have hsc : (if 0 = k then 0 else k) = k := by
    by_cases h0 : 0 = k
    · rw [if_pos h0, h0]
    · rw [if_neg h0]
  rw [hsc]
  simp only []
  rw [if_pos (show k ≠ n from by omega)]
  rw [List.range_eq_range']
  simp only [Nat.sub_zero]
  rw [rollbackLoop_spec db owned fr k 0 dstM []]
  simp

/-- Witness for C10: three source pages, allocation fails at the third
destination page, the grant would be owned. -/
theorem copy_inner_rollback_witness :
    ((fun i => decide (i < 2)) 2 = false) ∧
    Copy.copy_inner 0x5000 0x9000 3 7 (some 2)
      [(0x5000, 100), (0x6000, 200), (0x7000, 300)] [(0x20000, 999)]
      (fun i => decide (i < 2)) true false =
      some { srcM := [(0x5000, 100), (0x6000, 200), (0x7000, 300)],
             dstM := [(0x20000, 999)],
             freed := if true then (List.range 2).map
               (fun i => (i + 1) * 100) else [],
             out := .error () } :=
  ⟨by decide,
   copy_inner_rollback 0x5000 0x9000 3 7 (some 2)
     [(0x5000, 100), (0x6000, 200), (0x7000, 300)] [(0x20000, 999)]
     (fun i => decide (i < 2)) true (fun i => (i + 1) * 100) 2
     (by decide) (by decide) (by decide) (by decide)
     (by decide)⟩

end Helctic
